import Mathlib

/-!
# FinStrive ledger import core — a shallow embedding

This file embeds the core of `backend/app/parser.py` and
`backend/app/importer.py` in Lean 4 and proves properties of the embedding.

Conventions of the embedding:
* Python `Decimal` values (as produced by the parser and the importer's
  arithmetic: a non-negative decimal exponent, exact addition and negation)
  are modelled by `PyDecimal`: an integer mantissa together with the number
  of decimal places.
* Python `datetime` values carry only a calendar date here (the parser builds
  them with `strptime("%Y/%m/%d")`, so hour/minute/second are zero);
  `PyDate.isoformat` renders them the way `datetime.isoformat` does.
* The SQLAlchemy session is modelled by an explicit `DB` record of row lists;
  `add`+`flush` appends a row and assigns the next id.  `commit` has no
  separate meaning in the model (all session state is already in `DB`).
* `hashlib.sha256(...).hexdigest()` is implemented concretely (`sha256Hex`)
  over the UTF-8 bytes of the content string, following FIPS 180-4.
* Python's stable `sorted(postings, key=account)` is modelled by a stable
  insertion sort using code-point-lexicographic string comparison, which is
  Python's `str` ordering.
-/

/-! ## Decimal values -/

/-- Python `Decimal` as produced in this code base: `mant / 10 ^ exp`,
with `exp ≥ 0` decimal places (`Decimal("1250.00")` is `⟨125000, 2⟩`,
`Decimal("40000")` is `⟨40000, 0⟩`). -/
structure PyDecimal where
  mant : Int
  exp : Nat
  deriving DecidableEq, Repr

namespace PyDecimal

/-- Exact addition; the result keeps the larger number of decimal places,
as Python `Decimal.__add__` does (result exponent = min exponent). -/
def add (a b : PyDecimal) : PyDecimal :=
  let e := max a.exp b.exp
  ⟨a.mant * (10 : Int) ^ (e - a.exp) + b.mant * (10 : Int) ^ (e - b.exp), e⟩

/-- Negation, as Python unary minus on `Decimal` (note `-Decimal("0.00")`
is `Decimal("0.00")` under the default context). -/
def neg (a : PyDecimal) : PyDecimal := ⟨-a.mant, a.exp⟩

/-- Python `sum(xs)`: fold of `+` starting from the integer `0`,
which coerces to `Decimal(0)` (exponent `0`). -/
def pySum (l : List PyDecimal) : PyDecimal := l.foldl add ⟨0, 0⟩

/-- Truthiness of a `Decimal`: `bool(d)` is `False` exactly when the value
is zero. -/
def isZero (a : PyDecimal) : Bool := a.mant == 0

end PyDecimal

/-- Decimal digit character. -/
def digitChar (n : Nat) : Char := Char.ofNat (48 + n % 10)

/-- Decimal digits of a natural number, most significant first; `fuel`
bounds the recursion (`fuel = n + 1` always suffices). -/
def natDigits : Nat → Nat → List Char
  | 0, _ => []
  | fuel + 1, n =>
    if n < 10 then [digitChar n]
    else natDigits fuel (n / 10) ++ [digitChar (n % 10)]

/-- Decimal rendering of a natural number. -/
def natToDigits (n : Nat) : List Char := natDigits (n + 1) n

/-- `str` of a `Decimal` in this code base's value range: optional sign,
integer digits, and — when there are decimal places — a point followed by
exactly `exp` fractional digits, zero-padded on the left
(`str(Decimal("0.05")) = "0.05"`, `str(Decimal("-0.05")) = "-0.05"`). -/
def PyDecimal.toString (d : PyDecimal) : String :=
  let sign : List Char := if d.mant < 0 then ['-'] else []
  let digits := natToDigits d.mant.natAbs
  if d.exp = 0 then ⟨sign ++ digits⟩
  else
    let digits :=
      if digits.length ≤ d.exp then List.replicate (d.exp + 1 - digits.length) '0' ++ digits
      else digits
    ⟨sign ++ digits.take (digits.length - d.exp) ++ '.' :: digits.drop (digits.length - d.exp)⟩

/-! ## Dates -/

/-- The calendar date carried by a parsed transaction (`datetime` with a zero
time component, as built by `strptime("%Y/%m/%d")`). -/
structure PyDate where
  year : Nat
  month : Nat
  day : Nat
  deriving DecidableEq, Repr

/-- Left-pad a digit string with zeros to width `w`. -/
def padZeros (w : Nat) (ds : List Char) : List Char :=
  List.replicate (w - ds.length) '0' ++ ds

/-- `datetime.isoformat()` for a date with a zero time component:
`YYYY-MM-DDT00:00:00`. -/
def PyDate.isoformat (d : PyDate) : String :=
  ⟨padZeros 4 (natToDigits d.year) ++ '-' :: padZeros 2 (natToDigits d.month) ++
    '-' :: padZeros 2 (natToDigits d.day) ++ "T00:00:00".data⟩

/-! ## Parsed transactions (`parser.Posting`, `parser.Transaction`) -/

/-- `parser.Posting`: account path, optional amount, currency
(the dataclass default currency is `"INR"`). -/
structure Posting where
  account : String
  amount : Option PyDecimal := none
  currency : String := "INR"
  deriving DecidableEq, Repr

/-- `parser.Transaction`: a parsed ledger transaction. -/
structure ParsedTransaction where
  date : PyDate
  payee : String
  postings : List Posting
  deriving DecidableEq, Repr

/-! ## SHA-256 (`hashlib.sha256`), FIPS 180-4, over `Nat` words -/

/-- Truncate to a 32-bit word. -/
def w32 (n : Nat) : Nat := n % 4294967296

/-- Right-rotation of a 32-bit word. -/
def rotr32 (r x : Nat) : Nat := w32 ((x >>> r) ||| (x <<< (32 - r)))

/-- The 64 SHA-256 round constants. -/
def sha256K : List Nat :=
  [1116352408, 1899447441, 3049323471, 3921009573, 961987163,
   1508970993, 2453635748, 2870763221, 3624381080, 310598401,
   607225278, 1426881987, 1925078388, 2162078206, 2614888103,
   3248222580, 3835390401, 4022224774, 264347078, 604807628,
   770255983, 1249150122, 1555081692, 1996064986, 2554220882,
   2821834349, 2952996808, 3210313671, 3336571891, 3584528711,
   113926993, 338241895, 666307205, 773529912, 1294757372,
   1396182291, 1695183700, 1986661051, 2177026350, 2456956037,
   2730485921, 2820302411, 3259730800, 3345764771, 3516065817,
   3600352804, 4094571909, 275423344, 430227734, 506948616,
   659060556, 883997877, 958139571, 1322822218, 1537002063,
   1747873779, 1955562222, 2024104815, 2227730452, 2361852424,
   2428436474, 2756734187, 3204031479, 3329325298]

/-- The initial SHA-256 state. -/
def sha256H0 : List Nat :=
  [1779033703, 3144134277, 1013904242, 2773480762,
   1359893119, 2600822924, 528734635, 1541459225]

/-- Big-endian bytes of `n`, exactly `k` bytes. -/
def beBytes (k n : Nat) : List Nat :=
  (List.range k).map fun i => (n >>> (8 * (k - 1 - i))) % 256

/-- SHA-256 padding: append `0x80`, zero bytes to 56 mod 64, then the
bit length as 8 big-endian bytes. -/
def sha256Pad (msg : List Nat) : List Nat :=
  let l := msg.length
  let zeros := (64 + 55 - l % 64) % 64
  msg ++ 0x80 :: List.replicate zeros 0 ++ beBytes 8 (8 * l)

/-- Split a list into chunks of `k` elements (`k > 0`); `fuel` bounds the
recursion. -/
def chunksOf (k : Nat) : Nat → List Nat → List (List Nat)
  | 0, _ => []
  | _, [] => []
  | fuel + 1, l => l.take k :: chunksOf k fuel (l.drop k)

/-- A 64-byte block as 16 big-endian 32-bit words. -/
def blockWords (block : List Nat) : List Nat :=
  (chunksOf 4 block.length block).map fun bs => bs.foldl (fun a b => a * 256 + b) 0

/-- Extend 16 message-schedule words to 64. -/
def sha256Extend : Nat → List Nat → List Nat
  | 0, w => w
  | fuel + 1, w =>
    let i := w.length
    let g := fun j : Nat => w.getD j 0
    let s0 := (rotr32 7 (g (i - 15))) ^^^ (rotr32 18 (g (i - 15))) ^^^ ((g (i - 15)) >>> 3)
    let s1 := (rotr32 17 (g (i - 2))) ^^^ (rotr32 19 (g (i - 2))) ^^^ ((g (i - 2)) >>> 10)
    sha256Extend fuel (w ++ [w32 (g (i - 16) + s0 + g (i - 7) + s1)])

/-- One SHA-256 compression round. -/
def sha256Round (st : List Nat) (kw : Nat × Nat) : List Nat :=
  let g := fun j : Nat => st.getD j 0
  let a := g 0; let b := g 1; let c := g 2; let d := g 3
  let e := g 4; let f := g 5; let gg := g 6; let h := g 7
  let s1 := (rotr32 6 e) ^^^ (rotr32 11 e) ^^^ (rotr32 25 e)
  let ch := (e &&& f) ^^^ ((4294967295 - e) &&& gg)
  let temp1 := w32 (h + s1 + ch + kw.1 + kw.2)
  let s0 := (rotr32 2 a) ^^^ (rotr32 13 a) ^^^ (rotr32 22 a)
  let maj := (a &&& b) ^^^ (a &&& c) ^^^ (b &&& c)
  let temp2 := w32 (s0 + maj)
  [w32 (temp1 + temp2), a, b, c, w32 (d + temp1), e, f, gg]

/-- Compress one 64-byte block into the running state. -/
def sha256Block (st : List Nat) (block : List Nat) : List Nat :=
  let w := sha256Extend 48 (blockWords block)
  let st' := (sha256K.zip w).foldl sha256Round st
  (st.zip st').map fun ab => w32 (ab.1 + ab.2)

/-- SHA-256 digest of a byte list, as eight 32-bit words. -/
def sha256Words (msg : List Nat) : List Nat :=
  let padded := sha256Pad msg
  (chunksOf 64 padded.length padded).foldl sha256Block sha256H0

/-- Lower-case hexadecimal digit. -/
def hexDigit (n : Nat) : Char :=
  if n < 10 then Char.ofNat (48 + n) else Char.ofNat (87 + n)

/-- Eight hex digits of a 32-bit word, most significant first. -/
def hex8 (w : Nat) : List Char :=
  (List.range 8).map fun i => hexDigit ((w >>> (28 - 4 * i)) % 16)

/-- `hashlib.sha256(bytes).hexdigest()`. -/
def sha256Hex (msg : List Nat) : String :=
  ⟨(sha256Words msg).foldr (fun w acc => hex8 w ++ acc) []⟩

/-- UTF-8 bytes of one code point. -/
def utf8Bytes (c : Nat) : List Nat :=
  if c < 0x80 then [c]
  else if c < 0x800 then [0xC0 + c / 64, 0x80 + c % 64]
  else if c < 0x10000 then [0xE0 + c / 4096, 0x80 + (c / 64) % 64, 0x80 + c % 64]
  else [0xF0 + c / 262144, 0x80 + (c / 4096) % 64, 0x80 + (c / 64) % 64, 0x80 + c % 64]

/-- `str.encode()`: UTF-8 bytes of a string. -/
def strBytes (s : String) : List Nat := (s.data.map fun c => utf8Bytes c.toNat).flatten

/-! ## Transaction hashing (`parser.Transaction.calculate_hash`) -/

/-- Code-point-lexicographic comparison of character lists: Python's `<` on
`str`. -/
def charListLt : List Char → List Char → Bool
  | _, [] => false
  | [], _ :: _ => true
  | a :: as, b :: bs =>
    if a.toNat < b.toNat then true
    else if b.toNat < a.toNat then false
    else charListLt as bs

/-- Python `<` on strings (code-point lexicographic). -/
def pyStrLt (a b : String) : Bool := charListLt a.data b.data

/-- Insert a posting into a list sorted by account, after any posting with
an account not greater than its own — the placement a stable sort gives. -/
def insertPost (p : Posting) : List Posting → List Posting
  | [] => [p]
  | q :: qs => if pyStrLt q.account p.account then q :: insertPost p qs else p :: q :: qs

/-- `sorted(self.postings, key=lambda p: p.account)`: Python's `sorted` is
stable, and a stable sort by a fixed key has a unique result, here realised
as an insertion sort. -/
def sortPostings : List Posting → List Posting
  | [] => []
  | p :: ps => insertPost p (sortPostings ps)

/-- The amount as rendered into the hash content:
`str(posting.amount) if posting.amount else ""` — note the *truthiness*
test, under which both `None` and a zero `Decimal` render as `""`. -/
def amountStr : Option PyDecimal → String
  | none => ""
  | some d => if d.isZero then "" else d.toString

/-- The canonical content string fed to SHA-256 by `calculate_hash`:
`f"{date.isoformat()}|{payee}|"` followed by
`f"{account}:{amount_str}:{currency}|"` for each posting sorted by account. -/
def hashContent (t : ParsedTransaction) : String :=
  (sortPostings t.postings).foldl
    (fun acc p => acc ++ p.account ++ ":" ++ amountStr p.amount ++ ":" ++ p.currency ++ "|")
    (t.date.isoformat ++ "|" ++ t.payee ++ "|")

/-- `Transaction.calculate_hash`: SHA-256 hex digest of the UTF-8 bytes of
the canonical content string. -/
def calculate_hash (t : ParsedTransaction) : String :=
  sha256Hex (strBytes (hashContent t))

/-! ## Database rows and session state (`models.py`, SQLAlchemy session) -/

/-- `models.Account` row. -/
structure Account where
  id : Nat
  name : String
  full_path : String
  parent_id : Option Nat
  deriving DecidableEq, Repr

/-- `models.Transaction` row. -/
structure TransactionRow where
  id : Nat
  date : PyDate
  payee : String
  transaction_hash : String
  deriving DecidableEq, Repr

/-- `models.Posting` row. -/
structure PostingRow where
  transaction_id : Nat
  account_id : Nat
  amount : PyDecimal
  currency : String
  deriving DecidableEq, Repr

/-- `models.AccountBalance` row. -/
structure AccountBalanceRow where
  account_id : Nat
  balance : PyDecimal
  currency : String
  deriving DecidableEq, Repr

/-- The SQLAlchemy session state: the four tables plus the id counter the
database assigns on `flush`. -/
structure DB where
  accounts : List Account
  transactions : List TransactionRow
  postings : List PostingRow
  balances : List AccountBalanceRow
  nextId : Nat
  deriving DecidableEq, Repr

/-- An empty store. -/
def emptyDB : DB := ⟨[], [], [], [], 0⟩


/-! ## Account hierarchy (`Importer.get_or_create_account`) -/

/-- Python `str.split(sep)` for a single-character separator, over the
character list: splits at every occurrence, keeping empty pieces
(`"".split(":") == [""]`, so the result is never empty). -/
def pySplit (sep : Char) : List Char → List (List Char)
  | [] => [[]]
  | c :: cs =>
    let r := pySplit sep cs
    if c = sep then [] :: r
    else
      match r with
      | h :: t => (c :: h) :: t
      | [] => [[c]]

/-- `account_path.split(':')` as a list of strings. -/
def splitColon (s : String) : List String := (pySplit ':' s.data).map String.mk

/-- One step of the prefix-path accumulator: `':'.join(parts[:i+1])` grows
from `':'.join(parts[:i])` by a separator and the next part (no separator
before the first part). -/
def extendPath : Option String → String → String
  | none, part => part
  | some done, part => done ++ ":" ++ part

/-- The loop body of `get_or_create_account`: walk the path segments, and
for each prefix path look it up; create the row (with the parent link and
the next id, as `add`+`flush` does) when absent.  `donePath` accumulates
`':'.join` of the segments already walked, `parent` is the node of the
previous prefix. -/
def goaLoop : DB → Option Account → Option String → List String → Option Account × DB
  | db, parent, _, [] => (parent, db)
  | db, parent, donePath, part :: rest =>
    let current_path := extendPath donePath part
    match db.accounts.find? fun a => a.full_path == current_path with
    | some account => goaLoop db (some account) (some current_path) rest
    | none =>
      let account : Account := ⟨db.nextId, part, current_path, parent.map Account.id⟩
      goaLoop { db with accounts := db.accounts ++ [account], nextId := db.nextId + 1 }
        (some account) (some current_path) rest

/-- `Importer.get_or_create_account`: return the row for the exact path when
present; otherwise create every missing prefix (parent chained to the
previous prefix) and return the node of the complete path.  (The fallback
row is unreachable: `split` never returns an empty list.) -/
def get_or_create_account (db : DB) (account_path : String) : Account × DB :=
  match db.accounts.find? fun a => a.full_path == account_path with
  | some existing => (existing, db)
  | none =>
    match goaLoop db none none (splitColon account_path) with
    | (some a, db') => (a, db')
    | (none, db') => (⟨0, "", "", none⟩, db')

/-! ## Transaction creation (`Importer.get_or_create_transaction`) -/

/-- Replace the first amount-missing posting by its inferred amount and
currency — the in-place mutation `posting.amount = -total_amount;
posting.currency = ...` performed on the parsed posting list. -/
def fillFirstMissing (amt : PyDecimal) (cur : String) : List Posting → List Posting
  | [] => []
  | p :: ps =>
    if p.amount.isNone then { p with amount := some amt, currency := cur } :: ps
    else p :: fillFirstMissing amt cur ps

/-- The posting list after the balancing step of `get_or_create_transaction`:
with exactly one amount-missing posting and at least one amount-bearing one,
the missing amount becomes the negated sum of the present ones and the
currency is inherited from the first amount-bearing posting; otherwise the
list is unchanged. -/
def effectivePostings (ps : List Posting) : List Posting :=
  let withAmounts := ps.filter fun p => p.amount.isSome
  let withoutAmounts := ps.filter fun p => p.amount.isNone
  let total := if withAmounts.isEmpty then (⟨0, 2⟩ : PyDecimal)
    else PyDecimal.pySum (withAmounts.filterMap Posting.amount)
  match withoutAmounts.length, withAmounts with
  | 1, first :: _ => fillFirstMissing (PyDecimal.neg total) first.currency ps
  | _, _ => ps

/-- The posting-creation loop: for each effective posting, materialize its
account and add a `Posting` row, with a missing amount stored as
`Decimal("0.00")`. -/
def createPostingRows (txid : Nat) : DB → List Posting → DB
  | db, [] => db
  | db, p :: ps =>
    let (account, db) := get_or_create_account db p.account
    let row : PostingRow := ⟨txid, account.id, p.amount.getD ⟨0, 2⟩, p.currency⟩
    createPostingRows txid { db with postings := db.postings ++ [row] } ps

/-- `Importer.get_or_create_transaction`.  Mirrors the source order of
effects: the `Transaction` row is added (and flushed) *before* the
multiple-missing-amounts check, so the ambiguous-rejection path returns
`None` with the transaction row already in the session. -/
def get_or_create_transaction (db : DB) (pt : ParsedTransaction) :
    Option TransactionRow × DB :=
  let transaction_hash := calculate_hash pt
  match db.transactions.find? fun t => t.transaction_hash == transaction_hash with
  | some _ => (none, db)
  | none =>
    let tx : TransactionRow := ⟨db.nextId, pt.date, pt.payee, transaction_hash⟩
    let db := { db with transactions := db.transactions ++ [tx], nextId := db.nextId + 1 }
    let withoutAmounts := pt.postings.filter fun p => p.amount.isNone
    if withoutAmounts.length > 1 then (none, db)
    else
      let db := createPostingRows tx.id db (effectivePostings pt.postings)
      (some tx, db)

/-! ## Balances (`Importer.calculate_account_balance`,
`Importer.update_account_balances`) -/

/-- `str.startswith(pre)`. -/
def pyStartsWith (s pre : String) : Bool := s.data.take pre.data.length == pre.data

/-- The postings of one account, in table order. -/
def postingsOf (db : DB) (account_id : Nat) : List PostingRow :=
  db.postings.filter fun p => p.account_id == account_id

/-- The raw balance of an account: the plain signed sum of its postings'
amounts. -/
def rawBalance (db : DB) (account_id : Nat) : PyDecimal :=
  PyDecimal.pySum ((postingsOf db account_id).map PostingRow.amount)

/-- `Importer.calculate_account_balance`: the raw sum of the account's
postings with the display-sign adjustment keyed by `full_path.startswith`,
together with the first posting's currency; `(0.00, "INR")` when the account
is unknown or has no postings. -/
def calculate_account_balance (db : DB) (account_id : Nat) : PyDecimal × String :=
  match db.accounts.find? fun a => a.id == account_id with
  | none => (⟨0, 2⟩, "INR")
  | some account =>
    match postingsOf db account_id with
    | [] => (⟨0, 2⟩, "INR")
    | p :: ps =>
      let raw_balance := PyDecimal.pySum ((p :: ps).map PostingRow.amount)
      let currency := p.currency
      let account_path := account.full_path
      let display_balance :=
        if pyStartsWith account_path "Assets" then raw_balance
        else if pyStartsWith account_path "Income" then PyDecimal.neg raw_balance
        else if pyStartsWith account_path "Expenses" then raw_balance
        else if pyStartsWith account_path "Liabilities" || pyStartsWith account_path "Equity" then
          PyDecimal.neg raw_balance
        else raw_balance
      (display_balance, currency)

/-- Upsert of one `AccountBalance` row. -/
def upsertBalance (balances : List AccountBalanceRow) (account_id : Nat)
    (balance : PyDecimal) (currency : String) : List AccountBalanceRow :=
  if balances.any fun b => b.account_id == account_id then
    balances.map fun b =>
      if b.account_id == account_id then { b with balance := balance, currency := currency }
      else b
  else balances ++ [⟨account_id, balance, currency⟩]

/-- `Importer.update_account_balances`: recompute the cached balance row of
every account from `calculate_account_balance`. -/
def update_account_balances (db : DB) : DB :=
  db.accounts.foldl
    (fun db' account =>
      let (balance, currency) := calculate_account_balance db' account.id
      { db' with balances := upsertBalance db'.balances account.id balance currency })
    db

/-! ## The import run (`Importer.import_ledger_file`) -/

/-- The counts returned by an import run. -/
structure ImportResult where
  imported : Nat
  skipped : Nat
  total_parsed : Nat
  deriving DecidableEq, Repr

/-- The per-transaction loop, parameterized by a step so that the
`try/except` around `get_or_create_transaction` is modelled honestly: a step
returns the session state after whatever writes it performed plus either a
result (`ok`) or a raised exception (`error`).  An `ok some` counts as
imported; `ok none` (duplicate or ambiguous rejection) and `error` (caught
exception) count as skipped, and the loop always continues. -/
def importLoopE (step : DB → ParsedTransaction → DB × Except Unit (Option Nat)) :
    DB → List ParsedTransaction → DB × Nat × Nat
  | db, [] => (db, 0, 0)
  | db, pt :: rest =>
    let (db', r) := step db pt
    let (dbf, imported, skipped) := importLoopE step db' rest
    match r with
    | .ok (some _) => (dbf, imported + 1, skipped)
    | .ok none => (dbf, imported, skipped + 1)
    | .error _ => (dbf, imported, skipped + 1)

/-- The step actually taken by the importer: `get_or_create_transaction`,
which in the embedding is total and never raises. -/
def pureStep (db : DB) (pt : ParsedTransaction) : DB × Except Unit (Option Nat) :=
  let (r, db') := get_or_create_transaction db pt
  (db', .ok (r.map TransactionRow.id))

/-- `Importer.import_ledger_file` on an already-parsed transaction list (the
parse of a fixed file is a fixed list): run the loop, commit, recompute
balances, and report `{imported, skipped, total_parsed}`. -/
def import_ledger_file (db : DB) (parsed : List ParsedTransaction) : DB × ImportResult :=
  let (db1, imported, skipped) := importLoopE pureStep db parsed
  let db2 := update_account_balances db1
  (db2, ⟨imported, skipped, parsed.length⟩)

/-- `Importer.import_ledger_file` with its failure boundary: a missing
source file raises `FileNotFoundError` before anything else happens; with
the file present, the run is the (never-throwing) per-transaction loop over
an arbitrary step followed by the balance recomputation. -/
def import_ledger_fileE (fileExists : Bool)
    (step : DB → ParsedTransaction → DB × Except Unit (Option Nat))
    (db : DB) (parsed : List ParsedTransaction) : Except Unit (DB × ImportResult) :=
  if fileExists then
    let (db1, imported, skipped) := importLoopE step db parsed
    let db2 := update_account_balances db1
    .ok (db2, ⟨imported, skipped, parsed.length⟩)
  else .error ()

/-! ## Alias collection (`LedgerParser.parse_aliases`) -/

/-- ASCII `\w` (word character) of the alias regex. -/
def isWordChar (c : Char) : Bool :=
  (97 ≤ c.toNat && c.toNat ≤ 122) || (65 ≤ c.toNat && c.toNat ≤ 90) ||
    (48 ≤ c.toNat && c.toNat ≤ 57) || c.toNat == 95

/-- ASCII `\s` (whitespace) of the alias regex. -/
def isSpaceChar (c : Char) : Bool :=
  c.toNat == 32 || c.toNat == 9 || c.toNat == 10 ||
    c.toNat == 13 || c.toNat == 11 || c.toNat == 12

/-- One alternative `KEY=VALUE` tail: a nonempty `\w+` run, `=`, and a
nonempty remainder.  Backtracking cannot help the regex here: shortening the
greedy `\w+` run leaves it facing a word character, which is never `=`. -/
def keyValueTail (cs : List Char) : Option (String × String) :=
  match cs.span isWordChar with
  | ([], _) => none
  | (word, rest) =>
    match rest with
    | '=' :: val => if val.isEmpty then none else some (⟨word⟩, ⟨val⟩)
    | _ => none

/-- `ALIAS_PATTERN.match(line)` (for the ASCII inputs of this grammar):
either `^alias\s+(\w+)=(.+)$` or `^(\w+)=(.+)$`, returning the key and the
raw (unstripped) value. -/
def aliasMatch (line : String) : Option (String × String) :=
  let cs := line.data
  let alt1 :=
    if cs.take 5 = "alias".data then
      match (cs.drop 5).span isSpaceChar with
      | ([], _) => none
      | (_, rest) => keyValueTail rest
    else none
  match alt1 with
  | some kv => some kv
  | none => keyValueTail cs

/-- Python `str.rstrip()`: drop trailing whitespace. -/
def pyRstrip (s : String) : String := ⟨((s.data.reverse).dropWhile isSpaceChar).reverse⟩

/-- Python `str.strip()`: drop leading and trailing whitespace. -/
def pyStrip (s : String) : String :=
  ⟨(((s.data.dropWhile isSpaceChar).reverse).dropWhile isSpaceChar).reverse⟩

/-- The alias mapping (`self.aliases`): a Python dict, modelled by its
lookup function; assignment overwrites. -/
def AliasMap := String → Option String

/-- Dict assignment `self.aliases[key] = value`. -/
def AliasMap.set (m : AliasMap) (k v : String) : AliasMap :=
  fun k' => if k' = k then some v else m k'

/-- The loop of `parse_aliases`: each line is right-stripped; a blank line
is skipped while `in_aliases` holds; a line matching the alias pattern
records `key ↦ value.strip()` and (re-)enters alias mode — this test does
*not* consult `in_aliases`; any other line leaves alias mode and is passed
through. -/
def parseAliasesLoop (aliases : AliasMap) (in_aliases : Bool) :
    List String → AliasMap × List String
  | [] => (aliases, [])
  | l :: ls =>
    let line := pyRstrip l
    if in_aliases && line == "" then parseAliasesLoop aliases in_aliases ls
    else
      match aliasMatch line with
      | some (key, value) => parseAliasesLoop (aliases.set key (pyStrip value)) true ls
      | none =>
        let (m, rem) := parseAliasesLoop aliases false ls
        (m, line :: rem)

/-- `LedgerParser.parse_aliases` on a fresh parser: returns the alias
mapping built and the remaining (right-stripped) lines. -/
def parse_aliases (lines : List String) : AliasMap × List String :=
  parseAliasesLoop (fun _ => none) true lines

/-! ## Auxiliary notions used by the theorems -/

/-- Value equality of decimals, which is what Python `Decimal.__eq__`
compares (`Decimal("0.00") == Decimal("0")`). -/
def PyDecimal.valEq (a b : PyDecimal) : Prop :=
  a.mant * (10 : Int) ^ b.exp = b.mant * (10 : Int) ^ a.exp

/-- The display transform of `calculate_account_balance` as the code keys
it: by `startswith` string-prefix matching on the whole path (this is the
amended form of the top-segment table of the spec). -/
def prefixSignTransform (path : String) (raw : PyDecimal) : PyDecimal :=
  if pyStartsWith path "Assets" then raw
  else if pyStartsWith path "Income" then raw.neg
  else if pyStartsWith path "Expenses" then raw
  else if pyStartsWith path "Liabilities" || pyStartsWith path "Equity" then raw.neg
  else raw

/-- Join a nonempty list of path pieces with `:` (character-list level). -/
def joinColon : List (List Char) → List Char
  | [] => []
  | [p] => p
  | p :: ps => p ++ ':' :: joinColon ps

/-- `':'.join` of a leading prefix, folded with `extendPath`. -/
def extendAllStr (donePath : Option String) : List String → String
  | [] => donePath.getD ""
  | part :: rest => extendAllStr (some (extendPath donePath part)) rest

/-- A strict lower bound on the length of every path `extendPath` can still
produce from `donePath`. -/
def pathBound : Option String → Nat
  | none => 0
  | some d => d.data.length + 1

/-- The account rows `get_or_create_account` creates for the successive
prefixes of a fresh path: consecutive ids from `id0`, each row's parent the
previous row (the node of the next-shorter prefix). -/
def chainFrom (id0 : Nat) (parent : Option Nat) (donePath : Option String) :
    List String → List Account
  | [] => []
  | part :: rest =>
    let cur := extendPath donePath part
    ⟨id0, part, cur, parent⟩ :: chainFrom (id0 + 1) (some id0) (some cur) rest

/-- A parsed amount is falsy in Python's sense: absent, or a zero decimal. -/
def amountFalsy : Option PyDecimal → Bool
  | none => true
  | some d => d.isZero

/-- Two postings that the dedup hash cannot tell apart: same account, same
currency, and amounts either equal or both falsy (absent / zero). -/
def PostingLike (p q : Posting) : Prop :=
  p.account = q.account ∧ p.currency = q.currency ∧
    (p.amount = q.amount ∨ (amountFalsy p.amount ∧ amountFalsy q.amount))

/-- A step that always raises, for exercising the catch-and-continue loop. -/
def failStep : DB → ParsedTransaction → DB × Except Unit (Option Nat) :=
  fun db _ => (db, .error ())

/-! ## Concrete inputs used by counterexamples and witnesses -/

/-- A transaction with two amount-missing postings (ambiguous inference). -/
def txAmbiguous : ParsedTransaction :=
  ⟨⟨2024, 1, 1⟩, "x", [⟨"A", none, "INR"⟩, ⟨"B", none, "INR"⟩]⟩

/-- `Expenses:Food 1,250.00` plus an amount-missing `Assets:Banking:Checking`. -/
def txGrocery : ParsedTransaction :=
  ⟨⟨2024, 1, 2⟩, "grocery",
    [⟨"Expenses:Food", some ⟨125000, 2⟩, "INR"⟩, ⟨"Assets:Banking:Checking", none, "INR"⟩]⟩

/-- Two postings on the *same* account in one order… -/
def txDupA : ParsedTransaction :=
  ⟨⟨2024, 1, 1⟩, "p", [⟨"A", some ⟨100, 2⟩, "INR"⟩, ⟨"A", some ⟨200, 2⟩, "INR"⟩]⟩

/-- …and in the other order: the same posting multiset. -/
def txDupB : ParsedTransaction :=
  ⟨⟨2024, 1, 1⟩, "p", [⟨"A", some ⟨200, 2⟩, "INR"⟩, ⟨"A", some ⟨100, 2⟩, "INR"⟩]⟩

/-- Distinct-account postings in one order… -/
def txDistinctA : ParsedTransaction :=
  ⟨⟨2024, 1, 3⟩, "q", [⟨"Expenses:Food", some ⟨100, 2⟩, "INR"⟩, ⟨"Assets", some ⟨-100, 2⟩, "INR"⟩]⟩

/-- …and in the other order. -/
def txDistinctB : ParsedTransaction :=
  ⟨⟨2024, 1, 3⟩, "q", [⟨"Assets", some ⟨-100, 2⟩, "INR"⟩, ⟨"Expenses:Food", some ⟨100, 2⟩, "INR"⟩]⟩

/-- A posting with an explicit `0.00` amount… -/
def txZeroA : ParsedTransaction :=
  ⟨⟨2024, 1, 4⟩, "z", [⟨"Assets", some ⟨0, 2⟩, "INR"⟩, ⟨"Expenses", some ⟨500, 2⟩, "INR"⟩]⟩

/-- …versus the same posting with the amount absent. -/
def txZeroB : ParsedTransaction :=
  ⟨⟨2024, 1, 4⟩, "z", [⟨"Assets", none, "INR"⟩, ⟨"Expenses", some ⟨500, 2⟩, "INR"⟩]⟩

/-- A committed store: one `Income` account with a single `-500.00` posting. -/
def dbIncome : DB :=
  ⟨[⟨0, "Income", "Income", none⟩], [], [⟨0, 0, ⟨-50000, 2⟩, "INR"⟩], [], 1⟩

/-- A committed store: one account whose *first segment* is `Incomes` —
`Income` is a proper string prefix of it — with a single `100.00` posting. -/
def dbIncomes : DB :=
  ⟨[⟨0, "Incomes", "Incomes", none⟩], [], [⟨0, 0, ⟨10000, 2⟩, "INR"⟩], [], 1⟩

/-- The set of dedup hashes known to the store. -/
def DB.hashes (db : DB) : List String :=
  db.transactions.map TransactionRow.transaction_hash

/-! # Theorems -/

set_option maxRecDepth 1000000

/-- **C1** (code-bug evidence). Importing a transaction with two
amount-missing postings counts it as skipped (`imported = 0`,
`skipped = 1`) and persists no `Posting` rows — but, contrary to the claim,
a `Transaction` row *is* persisted: the source adds and flushes the row
before the multiple-missing-amounts check, and the run's commit keeps it. -/
theorem c1_ambiguous_rejection_keeps_transaction_row :
    (import_ledger_file emptyDB [txAmbiguous]).2 = ⟨0, 1, 1⟩ ∧
    (import_ledger_file emptyDB [txAmbiguous]).1.postings = [] ∧
    (import_ledger_file emptyDB [txAmbiguous]).1.transactions.length = 1 := by
  decide

/-- **C3** (code-bug evidence). After `update_account_balances`, the cached
balance of the `Income` account is the *display* value `+500.00`, not the
raw signed posting sum `-500.00`: `calculate_account_balance` returns the
display-adjusted value and `update_account_balances` stores exactly that,
contradicting the claim (and the source's own comments) that the cache
holds the raw sum. -/
theorem c3_cache_stores_display_value_not_raw_sum :
    rawBalance dbIncome 0 = ⟨-50000, 2⟩ ∧
    (update_account_balances dbIncome).balances = [⟨0, ⟨50000, 2⟩, "INR"⟩] ∧
    ¬ (update_account_balances dbIncome).balances = [⟨0, rawBalance dbIncome 0, "INR"⟩] := by
  decide

/-- **C4** (counterexample). In `["foo", "A=Assets"]` the first line is
non-blank and does not match the alias pattern, yet the later line
`A=Assets`, which matches alias syntax, *is* recorded as an alias and is
*not* passed through to the remaining lines — alias collection does not end
permanently. -/
theorem c4_counterexample_alias_recorded_after_collection_ends :
    aliasMatch "foo" = none ∧
    aliasMatch "A=Assets" = some ("A", "Assets") ∧
    (parse_aliases ["foo", "A=Assets"]).1 "A" = some "Assets" ∧
    (parse_aliases ["foo", "A=Assets"]).2 = ["foo"] := by
  refine ⟨by decide, by decide, rfl, by decide⟩

/-- **C5** (counterexample). The account `Incomes` — whose first
colon-segment is *not* `Income`, but has it as a proper string prefix — is
displayed negated (`-100.00` for a raw sum of `+100.00`): the code keys the
sign transform on `startswith`, so, contrary to the claim, such an account
is not treated as unknown. -/
theorem c5_counterexample_income_string_prefix_negates :
    rawBalance dbIncomes 0 = ⟨10000, 2⟩ ∧
    (calculate_account_balance dbIncomes 0).1 = PyDecimal.neg (rawBalance dbIncomes 0) ∧
    ¬ (calculate_account_balance dbIncomes 0).1 = rawBalance dbIncomes 0 := by
  decide

/-- **C6** (counterexample). Two parsed transactions with the same date,
payee, and posting multiset — two postings on the *same* account in the two
orders — hash differently: the sort is by account only and stable, so the
equal-account postings keep their source order in the hashed content. -/
theorem c6_counterexample_same_multiset_different_hash :
    txDupA.date = txDupB.date ∧ txDupA.payee = txDupB.payee ∧
    txDupA.postings.Perm txDupB.postings ∧
    ¬ calculate_hash txDupA = calculate_hash txDupB := by
  refine ⟨rfl, rfl, ?_, by decide⟩
  exact List.Perm.swap _ _ _

/-! ## Session-shape lemmas -/

/-- `goaLoop` touches only `accounts` and `nextId`. -/
theorem goaLoop_transactions (parts : List String) :
    ∀ db parent donePath, (goaLoop db parent donePath parts).2.transactions = db.transactions := by
  induction parts with
  | nil => intro db parent donePath; rfl
  | cons part rest ih =>
    intro db parent donePath
    unfold goaLoop
    cases h : db.accounts.find? fun a => a.full_path == extendPath donePath part with
    | some acc => simpa [h] using ih ..
    | none => simpa [h] using ih ..

/-- `goaLoop` touches only `accounts` and `nextId`. -/
theorem goaLoop_postings (parts : List String) :
    ∀ db parent donePath, (goaLoop db parent donePath parts).2.postings = db.postings := by
  induction parts with
  | nil => intro db parent donePath; rfl
  | cons part rest ih =>
    intro db parent donePath
    unfold goaLoop
    cases h : db.accounts.find? fun a => a.full_path == extendPath donePath part with
    | some acc => simpa [h] using ih ..
    | none => simpa [h] using ih ..

/-- `get_or_create_account` does not touch the transaction table. -/
theorem goa_transactions (db : DB) (path : String) :
    (get_or_create_account db path).2.transactions = db.transactions := by
  unfold get_or_create_account
  cases h : db.accounts.find? fun a => a.full_path == path with
  | some acc => rfl
  | none =>
    have := goaLoop_transactions (splitColon path) db none none
    cases hg : goaLoop db none none (splitColon path) with
    | mk fst snd => cases fst <;> simpa [hg] using this

/-- `get_or_create_account` does not touch the posting table. -/
theorem goa_postings (db : DB) (path : String) :
    (get_or_create_account db path).2.postings = db.postings := by
  unfold get_or_create_account
  cases h : db.accounts.find? fun a => a.full_path == path with
  | some acc => rfl
  | none =>
    have := goaLoop_postings (splitColon path) db none none
    cases hg : goaLoop db none none (splitColon path) with
    | mk fst snd => cases fst <;> simpa [hg] using this

/-- The posting-creation loop does not touch the transaction table. -/
theorem createPostingRows_transactions (ps : List Posting) :
    ∀ db txid, (createPostingRows txid db ps).transactions = db.transactions := by
  induction ps with
  | nil => intro db txid; rfl
  | cons p rest ih =>
    intro db txid
    unfold createPostingRows
    cases hg : get_or_create_account db p.account with
    | mk acc db' =>
      have h1 : db'.transactions = db.transactions := by
        have := goa_transactions db p.account; rw [hg] at this; exact this
      simpa [hg, ih] using h1

/-- `update_account_balances` touches only `balances`. -/
theorem update_account_balances_transactions (db : DB) :
    (update_account_balances db).transactions = db.transactions := by
  unfold update_account_balances
  generalize db.accounts = l
  induction l generalizing db with
  | nil => rfl
  | cons a rest ih => simpa using ih _

/-! ## Dedup-hash bookkeeping -/

/-- Loop unfolding: an imported head. -/
theorem importLoopE_cons_imported (step : DB → ParsedTransaction → DB × Except Unit (Option Nat))
    (db db' : DB) (pt : ParsedTransaction) (rest : List ParsedTransaction) (txid : Nat)
    (h : step db pt = (db', .ok (some txid))) :
    importLoopE step db (pt :: rest) =
      ((importLoopE step db' rest).1, (importLoopE step db' rest).2.1 + 1,
        (importLoopE step db' rest).2.2) := by
  simp [importLoopE, h]

/-- Loop unfolding: a skipped head (duplicate or ambiguous rejection). -/
theorem importLoopE_cons_skipped (step : DB → ParsedTransaction → DB × Except Unit (Option Nat))
    (db db' : DB) (pt : ParsedTransaction) (rest : List ParsedTransaction)
    (h : step db pt = (db', .ok none)) :
    importLoopE step db (pt :: rest) =
      ((importLoopE step db' rest).1, (importLoopE step db' rest).2.1,
        (importLoopE step db' rest).2.2 + 1) := by
  simp [importLoopE, h]

/-- Loop unfolding: a head whose step raised — the exception is caught,
`skipped` grows by one, and the loop continues on the remaining list with
whatever session state the step left behind. -/
theorem importLoopE_cons_error (step : DB → ParsedTransaction → DB × Except Unit (Option Nat))
    (db db' : DB) (pt : ParsedTransaction) (rest : List ParsedTransaction)
    (h : step db pt = (db', .error ())) :
    importLoopE step db (pt :: rest) =
      ((importLoopE step db' rest).1, (importLoopE step db' rest).2.1,
        (importLoopE step db' rest).2.2 + 1) := by
  simp [importLoopE, h]

/-- After `get_or_create_transaction`, the transaction table is either
unchanged (duplicate) or extended by exactly the new row. -/
theorem goct_transactions_shape (db : DB) (pt : ParsedTransaction) :
    (get_or_create_transaction db pt).2.transactions = db.transactions ∨
    (get_or_create_transaction db pt).2.transactions =
      db.transactions ++ [⟨db.nextId, pt.date, pt.payee, calculate_hash pt⟩] := by
  unfold get_or_create_transaction
  cases h : db.transactions.find? fun t => t.transaction_hash == calculate_hash pt with
  | some t => simp [h]
  | none =>
    simp only [h]
    by_cases hlen : (pt.postings.filter fun p => p.amount.isNone).length > 1
    · simp [hlen]
    · simp only [hlen, if_false]
      right
      exact createPostingRows_transactions _ _ _

/-- The hash of the processed transaction is afterwards always present. -/
theorem goct_hash_mem (db : DB) (pt : ParsedTransaction) :
    calculate_hash pt ∈ (get_or_create_transaction db pt).2.hashes := by
  unfold get_or_create_transaction DB.hashes
  cases h : db.transactions.find? fun t => t.transaction_hash == calculate_hash pt with
  | some t =>
    have hmem : t ∈ db.transactions := List.mem_of_find?_eq_some h
    have hp := List.find?_some h
    have heq : t.transaction_hash = calculate_hash pt := by simpa using hp
    simp only [h]
    exact heq ▸ List.mem_map_of_mem TransactionRow.transaction_hash hmem
  | none =>
    simp only [h]
    by_cases hlen : (pt.postings.filter fun p => p.amount.isNone).length > 1
    · simp [hlen]
    · simp only [hlen, if_false]
      have := createPostingRows_transactions (effectivePostings pt.postings)
        { db with
            transactions := db.transactions ++ [⟨db.nextId, pt.date, pt.payee, calculate_hash pt⟩],
            nextId := db.nextId + 1 } db.nextId
      simp [this]

/-- Hashes already present are preserved by `get_or_create_transaction`. -/
theorem goct_hash_mono (db : DB) (pt : ParsedTransaction) (h : String)
    (hh : h ∈ db.hashes) : h ∈ (get_or_create_transaction db pt).2.hashes := by
  unfold DB.hashes at hh ⊢
  rcases goct_transactions_shape db pt with hs | hs <;> rw [hs]
  · exact hh
  · simp only [List.map_append, List.mem_append]
    exact Or.inl hh

/-- A transaction whose hash is already stored is returned as a duplicate
and leaves the session untouched. -/
theorem goct_duplicate (db : DB) (pt : ParsedTransaction)
    (hh : calculate_hash pt ∈ db.hashes) :
    get_or_create_transaction db pt = (none, db) := by
  unfold get_or_create_transaction
  cases h : db.transactions.find? fun t => t.transaction_hash == calculate_hash pt with
  | some t => simp [h]
  | none =>
    exfalso
    rw [List.find?_eq_none] at h
    unfold DB.hashes at hh
    rcases List.mem_map.mp hh with ⟨t, htmem, hth⟩
    exact h t htmem (by simp [hth])

/-- The `pureStep` outcome determined by `get_or_create_transaction`. -/
theorem pureStep_eq (db : DB) (pt : ParsedTransaction) :
    pureStep db pt = ((get_or_create_transaction db pt).2,
      .ok ((get_or_create_transaction db pt).1.map TransactionRow.id)) := by
  unfold pureStep
  cases h : get_or_create_transaction db pt with
  | mk r db' => simp [h]

/-- Every hash present before the loop is present after it. -/
theorem loopPure_hash_mono (parsed : List ParsedTransaction) :
    ∀ db h, h ∈ db.hashes → h ∈ (importLoopE pureStep db parsed).1.hashes := by
  induction parsed with
  | nil => intro db h hh; exact hh
  | cons pt rest ih =>
    intro db h hh
    have hmono : h ∈ (get_or_create_transaction db pt).2.hashes := goct_hash_mono db pt h hh
    cases hr : (get_or_create_transaction db pt).1 with
    | none =>
      rw [importLoopE_cons_skipped pureStep db (get_or_create_transaction db pt).2 pt rest
        (by simp [pureStep_eq, hr])]
      exact ih _ h hmono
    | some tx =>
      rw [importLoopE_cons_imported pureStep db (get_or_create_transaction db pt).2 pt rest tx.id
        (by simp [pureStep_eq, hr])]
      exact ih _ h hmono

/-- After the loop, every processed transaction's hash is present. -/
theorem loopPure_hash_mem (parsed : List ParsedTransaction) :
    ∀ db pt, pt ∈ parsed → calculate_hash pt ∈ (importLoopE pureStep db parsed).1.hashes := by
  induction parsed with
  | nil => intro db pt hmem; cases hmem
  | cons hd rest ih =>
    intro db pt hmem
    have hcur : calculate_hash hd ∈ (get_or_create_transaction db hd).2.hashes :=
      goct_hash_mem db hd
    have hnext : calculate_hash pt ∈ (importLoopE pureStep (get_or_create_transaction db hd).2 rest).1.hashes := by
      rcases List.mem_cons.mp hmem with heq | hrest
      · subst heq; exact loopPure_hash_mono rest _ _ hcur
      · exact ih _ pt hrest
    cases hr : (get_or_create_transaction db hd).1 with
    | none =>
      rw [importLoopE_cons_skipped pureStep db (get_or_create_transaction db hd).2 hd rest
        (by simp [pureStep_eq, hr])]
      exact hnext
    | some tx =>
      rw [importLoopE_cons_imported pureStep db (get_or_create_transaction db hd).2 hd rest tx.id
        (by simp [pureStep_eq, hr])]
      exact hnext

/-- When every transaction in the list is already stored, the loop changes
nothing, imports nothing, and skips all of them. -/
theorem loopPure_all_duplicates (parsed : List ParsedTransaction) :
    ∀ db, (∀ pt ∈ parsed, calculate_hash pt ∈ db.hashes) →
      importLoopE pureStep db parsed = (db, 0, parsed.length) := by
  induction parsed with
  | nil => intro db _; rfl
  | cons hd rest ih =>
    intro db hall
    have hdup := goct_duplicate db hd (hall hd (List.mem_cons_self hd rest))
    rw [importLoopE_cons_skipped pureStep db db hd rest (by simp [pureStep_eq, hdup])]
    rw [ih db fun pt hm => hall pt (List.mem_cons_of_mem hd hm)]
    rfl

/-- Unfolding of `import_ledger_file` into its loop and balance phases. -/
theorem import_ledger_file_eq (db : DB) (parsed : List ParsedTransaction) :
    import_ledger_file db parsed =
      (update_account_balances (importLoopE pureStep db parsed).1,
        ⟨(importLoopE pureStep db parsed).2.1, (importLoopE pureStep db parsed).2.2,
          parsed.length⟩) := by
  unfold import_ledger_file
  cases h : importLoopE pureStep db parsed with
  | mk db1 counts => simp [h]

/-- The balance recomputation does not change the known hash set. -/
theorem update_account_balances_hashes (db : DB) :
    (update_account_balances db).hashes = db.hashes := by
  unfold DB.hashes
  rw [update_account_balances_transactions]

/-- **C2.** Idempotent re-import: running `import_ledger_file` a second time
over the same parsed ledger against the storage produced by the first run
returns `imported = 0` and `skipped = total_parsed`, and `total_parsed`
agrees between the runs.  (Even ambiguous-rejected transactions leave their
hash behind — see C1 — so on the second run every parsed transaction hits
the duplicate gate.) -/
theorem c2_second_import_skips_everything (db : DB) (parsed : List ParsedTransaction) :
    (import_ledger_file (import_ledger_file db parsed).1 parsed).2 =
      ⟨0, parsed.length, parsed.length⟩ ∧
    (import_ledger_file (import_ledger_file db parsed).1 parsed).2.skipped =
      (import_ledger_file (import_ledger_file db parsed).1 parsed).2.total_parsed ∧
    (import_ledger_file db parsed).2.total_parsed =
      (import_ledger_file (import_ledger_file db parsed).1 parsed).2.total_parsed := by
  have hall : ∀ pt ∈ parsed, calculate_hash pt ∈ (import_ledger_file db parsed).1.hashes := by
    intro pt hmem
    rw [import_ledger_file_eq, update_account_balances_hashes]
    exact loopPure_hash_mem parsed db pt hmem
  have hloop := loopPure_all_duplicates parsed (import_ledger_file db parsed).1 hall
  constructor
  · rw [import_ledger_file_eq ((import_ledger_file db parsed).1) parsed, hloop]
  constructor
  · rw [import_ledger_file_eq ((import_ledger_file db parsed).1) parsed, hloop]
  · simp [import_ledger_file_eq]

/-! ## C8: failure boundary -/

/-- **C8.** The import surfaces an error to the caller exactly when the
source file does not exist; and any failure raised by the per-transaction
step is caught: the skipped counter grows by one and the loop continues
over the remaining transactions (over whatever session state the failing
step left), still producing its counts. -/
theorem c8_error_boundary :
    (∀ (fileExists : Bool) (step : DB → ParsedTransaction → DB × Except Unit (Option Nat))
        (db : DB) (parsed : List ParsedTransaction),
      import_ledger_fileE fileExists step db parsed = .error () ↔ fileExists = false) ∧
    (∀ (step : DB → ParsedTransaction → DB × Except Unit (Option Nat)) (db db' : DB)
        (pt : ParsedTransaction) (rest : List ParsedTransaction),
      step db pt = (db', .error ()) →
      importLoopE step db (pt :: rest) =
        ((importLoopE step db' rest).1, (importLoopE step db' rest).2.1,
          (importLoopE step db' rest).2.2 + 1)) := by
  constructor
  · intro fileExists step db parsed
    cases fileExists with
    | false => simp [import_ledger_fileE]
    | true =>
      simp only [import_ledger_fileE, if_true]
      cases h : importLoopE step db parsed with
      | mk db1 counts => simp
  · intro step db db' pt rest h
    exact importLoopE_cons_error step db db' pt rest h

/-- **C8 witness.** At the always-raising step over a concrete transaction
list, the loop catches the failure, skips it, and still returns its counts;
and the boundary reports an error exactly for the missing file. -/
theorem c8_error_boundary_witness :
    importLoopE failStep emptyDB [txAmbiguous] = (emptyDB, 0, 1) ∧
    import_ledger_fileE false failStep emptyDB [txAmbiguous] = .error () := by
  constructor
  · rw [c8_error_boundary.2 failStep emptyDB emptyDB txAmbiguous [] rfl]
    rfl
  · exact (c8_error_boundary.1 false failStep emptyDB [txAmbiguous]).mpr rfl

/-! ## C10: zero amounts render like absent amounts -/

/-- Falsy amounts (absent or zero) render as the empty string. -/
theorem amountStr_falsy (a : Option PyDecimal) (h : amountFalsy a = true) :
    amountStr a = "" := by
  cases a with
  | none => rfl
  | some d => simp only [amountFalsy] at h; simp [amountStr, h]

/-- Hash-indistinguishable postings render identically. -/
theorem postingLike_renders_equal (p q : Posting) (h : PostingLike p q) :
    p.account = q.account ∧ p.currency = q.currency ∧
      amountStr p.amount = amountStr q.amount := by
  obtain ⟨ha, hc, hm⟩ := h
  refine ⟨ha, hc, ?_⟩
  rcases hm with heq | ⟨hf1, hf2⟩
  · rw [heq]
  · rw [amountStr_falsy _ hf1, amountStr_falsy _ hf2]

/-- Insertion preserves pointwise hash-indistinguishability. -/
theorem insertPost_forall2 (p q : Posting) (hpq : PostingLike p q) :
    ∀ {l1 l2 : List Posting}, List.Forall₂ PostingLike l1 l2 →
      List.Forall₂ PostingLike (insertPost p l1) (insertPost q l2) := by
  intro l1 l2 h
  induction h with
  | nil => exact List.Forall₂.cons hpq List.Forall₂.nil
  | cons hab h ih =>
    rename_i a b l1 l2
    have hacc : a.account = b.account := hab.1
    have hcond : pyStrLt a.account p.account = pyStrLt b.account q.account := by
      rw [hacc, hpq.1]
    by_cases hlt : pyStrLt a.account p.account = true
    · simp only [insertPost, hlt, if_true, hcond ▸ hlt]
      exact List.Forall₂.cons hab ih
    · have hlt' : pyStrLt b.account q.account = false := by
        rw [← hcond]; exact Bool.not_eq_true _ ▸ eq_false_of_ne_true hlt
      simp only [insertPost, eq_false_of_ne_true hlt, hlt', if_false]
      exact List.Forall₂.cons hpq (List.Forall₂.cons hab h)

/-- The stable sort preserves pointwise hash-indistinguishability. -/
theorem sortPostings_forall2 :
    ∀ {l1 l2 : List Posting}, List.Forall₂ PostingLike l1 l2 →
      List.Forall₂ PostingLike (sortPostings l1) (sortPostings l2) := by
  intro l1 l2 h
  induction h with
  | nil => exact List.Forall₂.nil
  | cons hab h ih => exact insertPost_forall2 _ _ hab ih

/-- Folding the posting renderer over pointwise-indistinguishable lists
from equal accumulators gives equal content. -/
theorem renderFold_eq_of_forall2 :
    ∀ {l1 l2 : List Posting}, List.Forall₂ PostingLike l1 l2 → ∀ acc : String,
      l1.foldl (fun acc p =>
          acc ++ p.account ++ ":" ++ amountStr p.amount ++ ":" ++ p.currency ++ "|") acc =
      l2.foldl (fun acc p =>
          acc ++ p.account ++ ":" ++ amountStr p.amount ++ ":" ++ p.currency ++ "|") acc := by
  intro l1 l2 h
  induction h with
  | nil => intro acc; rfl
  | cons hab h ih =>
    intro acc
    obtain ⟨ha, hc, hm⟩ := postingLike_renders_equal _ _ hab
    simp only [List.foldl_cons, ha, hc, hm]
    exact ih _

/-- **C10.** In `calculate_hash`, an explicit zero amount renders exactly
like an absent amount (both as `""`); consequently two parsed transactions
with the same date, payee, accounts and currencies, whose amounts agree
except that one side records `0.00` where the other records nothing,
produce the same dedup hash — and the second of them is always rejected as
a duplicate once the first has been processed. -/
theorem c10_zero_amount_hashes_like_missing :
    (∀ e : Nat, amountStr (some ⟨0, e⟩) = "" ∧ amountStr none = "") ∧
    (∀ (t1 t2 : ParsedTransaction) (db : DB),
      t1.date = t2.date → t1.payee = t2.payee →
      List.Forall₂ PostingLike t1.postings t2.postings →
      calculate_hash t1 = calculate_hash t2 ∧
      (get_or_create_transaction (get_or_create_transaction db t1).2 t2).1 = none) := by
  constructor
  · intro e; exact ⟨amountStr_falsy _ rfl, rfl⟩
  · intro t1 t2 db hdate hpayee hpost
    have hhash : calculate_hash t1 = calculate_hash t2 := by
      unfold calculate_hash hashContent
      rw [hdate, hpayee, renderFold_eq_of_forall2 (sortPostings_forall2 hpost)]
    refine ⟨hhash, ?_⟩
    have hmem : calculate_hash t2 ∈ (get_or_create_transaction db t1).2.hashes := by
      rw [← hhash]; exact goct_hash_mem db t1
    rw [goct_duplicate _ t2 hmem]

/-- **C10 witness.** The concrete pair: `Assets 0.00 / Expenses 500.00`
versus `Assets (no amount) / Expenses 500.00` share one hash and
deduplicate against each other in an empty store. -/
theorem c10_zero_amount_hashes_like_missing_witness :
    calculate_hash txZeroA = calculate_hash txZeroB ∧
    (get_or_create_transaction (get_or_create_transaction emptyDB txZeroA).2 txZeroB).1 = none := by
  refine c10_zero_amount_hashes_like_missing.2 txZeroA txZeroB emptyDB rfl rfl ?_
  refine List.Forall₂.cons ⟨rfl, rfl, Or.inr ⟨rfl, rfl⟩⟩ ?_
  exact List.Forall₂.cons ⟨rfl, rfl, Or.inl rfl⟩ List.Forall₂.nil

/-! ## C6 (amended): order independence for distinct account paths -/

/-- Characters with equal code points are equal. -/
theorem char_eq_of_toNat_eq {a b : Char} (h : a.toNat = b.toNat) : a = b := by
  have hv : a.val = b.val := by
    apply UInt32.eq_of_val_eq
    apply Fin.eq_of_val_eq
    exact h
  exact Char.eq_of_val_eq hv

/-- Lexicographic comparison is asymmetric. -/
theorem charListLt_asymm :
    ∀ {x y : List Char}, charListLt x y = true → charListLt y x = false := by
  intro x y
  induction x generalizing y with
  | nil => intro h; cases y with
    | nil => cases h
    | cons b bs => rfl
  | cons a as ih =>
    intro h
    cases y with
    | nil => cases h
    | cons b bs =>
      simp only [charListLt] at h ⊢
      by_cases hab : a.toNat < b.toNat
      · have hba : ¬ b.toNat < a.toNat := Nat.lt_asymm hab
        simp [hab, hba]
      · by_cases hba : b.toNat < a.toNat
        · simp [hab, hba] at h
        · simp only [hab, if_false, hba] at h ⊢
          simp [ih h]

/-- Lexicographic comparison is transitive. -/
theorem charListLt_trans :
    ∀ {x y z : List Char}, charListLt x y = true → charListLt y z = true →
      charListLt x z = true := by
  intro x y z
  induction x generalizing y z with
  | nil =>
    intro _ hyz
    cases y with
    | nil => exact hyz
    | cons b bs =>
      cases z with
      | nil => cases hyz
      | cons c cs => rfl
  | cons a as ih =>
    intro hxy hyz
    cases y with
    | nil => cases hxy
    | cons b bs =>
      cases z with
      | nil => cases hyz
      | cons c cs =>
        simp only [charListLt] at hxy hyz ⊢
        by_cases hab : a.toNat < b.toNat
        · by_cases hbc : b.toNat < c.toNat
          · simp [Nat.lt_trans hab hbc]
          · by_cases hcb : c.toNat < b.toNat
            · simp [hbc, hcb] at hyz
            · have hbc' : b.toNat = c.toNat := Nat.le_antisymm (Nat.le_of_not_lt hcb) (Nat.le_of_not_lt hbc)
              simp [hbc' ▸ hab]
        · by_cases hba : b.toNat < a.toNat
          · simp [hab, hba] at hxy
          · have hab' : a.toNat = b.toNat := Nat.le_antisymm (Nat.le_of_not_lt hba) (Nat.le_of_not_lt hab)
            simp only [hab, if_false, hba] at hxy
            by_cases hbc : b.toNat < c.toNat
            · simp [hab' ▸ hbc]
            · by_cases hcb : c.toNat < b.toNat
              · simp [hbc, hcb] at hyz
              · simp only [hbc, if_false, hcb] at hyz
                simp [hab', hbc, hcb, ih hxy hyz]

/-- Two lists neither of which is lexicographically below the other are
equal. -/
theorem charListLt_eq_of_not_lt :
    ∀ {x y : List Char}, charListLt x y = false → charListLt y x = false → x = y := by
  intro x y
  induction x generalizing y with
  | nil =>
    intro hxy _
    cases y with
    | nil => rfl
    | cons b bs => cases hxy
  | cons a as ih =>
    intro hxy hyx
    cases y with
    | nil => cases hyx
    | cons b bs =>
      simp only [charListLt] at hxy hyx
      by_cases hab : a.toNat < b.toNat
      · simp [hab] at hxy
      · by_cases hba : b.toNat < a.toNat
        · simp [hba] at hyx
        · simp only [hab, if_false, hba] at hxy hyx
          have : a = b := char_eq_of_toNat_eq
            (Nat.le_antisymm (Nat.le_of_not_lt hba) (Nat.le_of_not_lt hab))
          rw [this, ih hxy hyx]

/-- Distinct strings are strictly comparable in one direction. -/
theorem pyStrLt_total_of_ne {a b : String} (h : a ≠ b) :
    pyStrLt a b = true ∨ pyStrLt b a = true := by
  by_cases hab : pyStrLt a b = true
  · exact Or.inl hab
  · by_cases hba : pyStrLt b a = true
    · exact Or.inr hba
    · exfalso
      apply h
      have hd := charListLt_eq_of_not_lt
        (Bool.not_eq_true _ ▸ hab) (Bool.not_eq_true _ ▸ hba)
      exact congrArg String.mk hd

/-- Strict comparability below and above at once is impossible. -/
theorem pyStrLt_asymm {a b : String} (h : pyStrLt a b = true) : pyStrLt b a = false :=
  charListLt_asymm h

/-- Transitivity at the string level. -/
theorem pyStrLt_trans {a b c : String} (h1 : pyStrLt a b = true)
    (h2 : pyStrLt b c = true) : pyStrLt a c = true :=
  charListLt_trans h1 h2

/-- A non-lexicographically-below string is above or equal. -/
theorem pyStrLt_cases_of_not {x y : String} (h : pyStrLt x y = false) :
    x = y ∨ pyStrLt y x = true := by
  by_cases he : x = y
  · exact Or.inl he
  · rcases pyStrLt_total_of_ne he with h1 | h1
    · rw [h1] at h; cases h
    · exact Or.inr h1

/-- Insertion walks past a strictly smaller head. -/
theorem insertPost_cons_lt (p q : Posting) (qs : List Posting)
    (h : pyStrLt q.account p.account = true) :
    insertPost p (q :: qs) = q :: insertPost p qs := by
  simp [insertPost, h]

/-- Insertion stops before a head that is not strictly smaller. -/
theorem insertPost_cons_ge (p q : Posting) (qs : List Posting)
    (h : pyStrLt q.account p.account = false) :
    insertPost p (q :: qs) = p :: q :: qs := by
  simp [insertPost, h]

/-- Insertions of postings on distinct accounts commute. -/
theorem insertPost_comm (p q : Posting) (hne : p.account ≠ q.account) :
    ∀ l : List Posting, insertPost p (insertPost q l) = insertPost q (insertPost p l) := by
  intro l
  induction l with
  | nil =>
    rcases pyStrLt_total_of_ne hne with hpq | hqp
    · have hqp' : pyStrLt q.account p.account = false := pyStrLt_asymm hpq
      show insertPost p [q] = insertPost q [p]
      rw [insertPost_cons_ge p q [] hqp', insertPost_cons_lt q p [] hpq]
      rfl
    · have hpq' : pyStrLt p.account q.account = false := pyStrLt_asymm hqp
      show insertPost p [q] = insertPost q [p]
      rw [insertPost_cons_lt p q [] hqp, insertPost_cons_ge q p [] hpq']
      rfl
  | cons a l ih =>
    by_cases hQ : pyStrLt a.account q.account = true
    · by_cases hP : pyStrLt a.account p.account = true
      · rw [insertPost_cons_lt q a l hQ, insertPost_cons_lt p a _ hP,
          insertPost_cons_lt p a l hP, insertPost_cons_lt q a _ hQ, ih]
      · have hP' : pyStrLt a.account p.account = false := eq_false_of_ne_true hP
        have hpq : pyStrLt p.account q.account = true := by
          rcases pyStrLt_cases_of_not hP' with he | hlt
          · rw [he] at hQ; exact hQ
          · exact pyStrLt_trans hlt hQ
        have hqp' : pyStrLt q.account p.account = false := pyStrLt_asymm hpq
        rw [insertPost_cons_lt q a l hQ, insertPost_cons_ge p a _ hP',
          insertPost_cons_ge p a l hP', insertPost_cons_lt q p _ hpq,
          insertPost_cons_lt q a l hQ]
    · have hQ' : pyStrLt a.account q.account = false := eq_false_of_ne_true hQ
      by_cases hP : pyStrLt a.account p.account = true
      · have hqp : pyStrLt q.account p.account = true := by
          rcases pyStrLt_cases_of_not hQ' with he | hlt
          · rw [he] at hP; exact hP
          · exact pyStrLt_trans hlt hP
        have hpq' : pyStrLt p.account q.account = false := pyStrLt_asymm hqp
        rw [insertPost_cons_ge q a l hQ', insertPost_cons_lt p q _ hqp,
          insertPost_cons_lt p a l hP, insertPost_cons_ge q a _ hQ']
      · have hP' : pyStrLt a.account p.account = false := eq_false_of_ne_true hP
        rcases pyStrLt_total_of_ne hne with hpq | hqp
        · have hqp' : pyStrLt q.account p.account = false := pyStrLt_asymm hpq
          rw [insertPost_cons_ge q a l hQ', insertPost_cons_ge p q _ hqp',
            insertPost_cons_ge p a l hP', insertPost_cons_lt q p _ hpq,
            insertPost_cons_ge q a l hQ']
        · have hpq' : pyStrLt p.account q.account = false := pyStrLt_asymm hqp
          rw [insertPost_cons_ge q a l hQ', insertPost_cons_ge p a l hP',
            insertPost_cons_lt p q _ hqp, insertPost_cons_ge p a l hP',
            insertPost_cons_ge q p _ hpq']

/-- With pairwise-distinct account paths, every permutation sorts to the
same list. -/
theorem sortPostings_eq_of_perm :
    ∀ {l1 l2 : List Posting}, l1.Perm l2 → (l1.map Posting.account).Nodup →
      sortPostings l1 = sortPostings l2 := by
  intro l1 l2 h
  induction h with
  | nil => intro _; rfl
  | cons x h ih =>
    intro hnd
    rw [List.map_cons, List.nodup_cons] at hnd
    show insertPost x (sortPostings _) = insertPost x (sortPostings _)
    rw [ih hnd.2]
  | swap x y l =>
    intro hnd
    rw [List.map_cons, List.map_cons, List.nodup_cons] at hnd
    have hxy : y.account ≠ x.account := fun he => hnd.1 (he ▸ List.mem_cons_self _ _)
    show insertPost y (insertPost x (sortPostings l)) =
      insertPost x (insertPost y (sortPostings l))
    exact insertPost_comm y x hxy (sortPostings l)
  | trans h1 h2 ih1 ih2 =>
    intro hnd
    have hnd2 := ((h1.map Posting.account).nodup_iff).mp hnd
    rw [ih1 hnd, ih2 hnd2]

/-- **C6 (amended).** For two parsed transactions with the same date and
payee whose posting lists are permutations of one another *with pairwise
distinct account paths*, `calculate_hash` is order independent.  (The
distinctness proviso is forced by the counterexample: the sort is by
account only and stable.) -/
theorem c6_amended_hash_order_independent_on_distinct_accounts
    (t1 t2 : ParsedTransaction) (hdate : t1.date = t2.date)
    (hpayee : t1.payee = t2.payee) (hperm : t1.postings.Perm t2.postings)
    (hnd : (t1.postings.map Posting.account).Nodup) :
    calculate_hash t1 = calculate_hash t2 := by
  unfold calculate_hash hashContent
  rw [hdate, hpayee, sortPostings_eq_of_perm hperm hnd]

/-- **C6 (amended) witness.** The two orders of
`[Expenses:Food 1.00, Assets -1.00]` hash identically. -/
theorem c6_amended_hash_order_independent_witness :
    calculate_hash txDistinctA = calculate_hash txDistinctB := by
  apply c6_amended_hash_order_independent_on_distinct_accounts txDistinctA txDistinctB rfl rfl
  · exact List.Perm.swap _ _ _
  · decide

/-! ## C5 (amended): prefix-keyed display transform -/

/-- **C5 (amended).** For an account that exists and has at least one
posting, `calculate_account_balance` returns its raw posting sum with the
`startswith`-keyed sign transform applied (negating paths that start with
`Income`, `Liabilities` or `Equity`, testing `Assets` first), together with
the first posting's currency. -/
theorem c5_amended_display_is_prefix_transform_of_raw (db : DB) (aid : Nat)
    (a : Account) (p : PostingRow) (ps : List PostingRow)
    (ha : db.accounts.find? (fun x => x.id == aid) = some a)
    (hp : postingsOf db aid = p :: ps) :
    calculate_account_balance db aid =
      (prefixSignTransform a.full_path (rawBalance db aid), p.currency) := by
  unfold calculate_account_balance prefixSignTransform rawBalance
  rw [ha, hp]

/-- **C5 (amended) witness.** The `Incomes` store: the stored display value
is the prefix transform (a negation) of the raw balance. -/
theorem c5_amended_display_is_prefix_transform_witness :
    calculate_account_balance dbIncomes 0 =
      (prefixSignTransform "Incomes" (rawBalance dbIncomes 0), "INR") := by
  exact c5_amended_display_is_prefix_transform_of_raw dbIncomes 0
    ⟨0, "Incomes", "Incomes", none⟩ ⟨0, 0, ⟨10000, 2⟩, "INR"⟩ [] rfl rfl

/-! ## C4 (amended): alias directives are recognized anywhere -/

/-- One-step unfolding of the alias loop. -/
theorem parseAliasesLoop_cons (al : AliasMap) (ina : Bool) (a : String) (ls : List String) :
    parseAliasesLoop al ina (a :: ls) =
      if ina && (pyRstrip a == "") then parseAliasesLoop al ina ls
      else
        match aliasMatch (pyRstrip a) with
        | some (key, value) => parseAliasesLoop (al.set key (pyStrip value)) true ls
        | none =>
          let r := parseAliasesLoop al false ls
          (r.1, pyRstrip a :: r.2) := rfl

/-- Every line the alias loop passes through fails the alias pattern. -/
theorem parseAliasesLoop_rem_no_alias :
    ∀ (ls : List String) (al : AliasMap) (ina : Bool) (x : String),
      x ∈ (parseAliasesLoop al ina ls).2 → aliasMatch x = none := by
  intro ls
  induction ls with
  | nil => intro al ina x hx; cases hx
  | cons a ls ih =>
    intro al ina x hx
    rw [parseAliasesLoop_cons] at hx
    by_cases hb : (ina && (pyRstrip a == "")) = true
    · rw [if_pos hb] at hx
      exact ih al ina x hx
    · rw [if_neg hb] at hx
      cases hm : aliasMatch (pyRstrip a) with
      | some kv =>
        rw [hm] at hx
        exact ih _ true x hx
      | none =>
        rw [hm] at hx
        simp only [List.mem_cons] at hx
        rcases hx with he | hx
        · rw [he]; exact hm
        · exact ih al false x hx

/-- A final line matching the alias pattern always ends up recorded. -/
theorem parseAliasesLoop_last_alias :
    ∀ (ls : List String) (al : AliasMap) (ina : Bool) (l k v : String),
      aliasMatch (pyRstrip l) = some (k, v) →
      (parseAliasesLoop al ina (ls ++ [l])).1 k = some (pyStrip v) := by
  intro ls
  induction ls with
  | nil =>
    intro al ina l k v hm
    rw [List.nil_append, parseAliasesLoop_cons]
    by_cases hb : (ina && (pyRstrip l == "")) = true
    · exfalso
      have hblank : pyRstrip l = "" := by
        have := (Bool.and_eq_true _ _).mp hb
        exact eq_of_beq this.2
      rw [hblank] at hm
      have hnone : aliasMatch "" = none := rfl
      rw [hnone] at hm
      cases hm
    · rw [if_neg hb, hm]
      simp [parseAliasesLoop, AliasMap.set]
  | cons a ls ih =>
    intro al ina l k v hm
    rw [List.cons_append, parseAliasesLoop_cons]
    by_cases hb : (ina && (pyRstrip a == "")) = true
    · rw [if_pos hb]; exact ih al ina l k v hm
    · rw [if_neg hb]
      cases ha : aliasMatch (pyRstrip a) with
      | some kv => exact ih _ true l k v hm
      | none => exact ih al false l k v hm

/-- **C4 (amended).** A line matching alias syntax is recorded and stripped
wherever it occurs — whatever lines (matching or not, blank or not) precede
it: its key maps to its stripped value afterwards, and the (right-stripped)
line is not passed through to the remaining line sequence. -/
theorem c4_amended_alias_lines_recorded_anywhere (pre : List String) (l k v : String)
    (hm : aliasMatch (pyRstrip l) = some (k, v)) :
    (parse_aliases (pre ++ [l])).1 k = some (pyStrip v) ∧
    pyRstrip l ∉ (parse_aliases (pre ++ [l])).2 := by
  constructor
  · exact parseAliasesLoop_last_alias pre _ true l k v hm
  · intro hmem
    have hnone := parseAliasesLoop_rem_no_alias (pre ++ [l]) _ true _ hmem
    rw [hnone] at hm
    cases hm

/-- **C4 (amended) witness.** After a transaction header and a posting line
have ended the leading alias run, `B=Liabilities` is still recorded and
stripped. -/
theorem c4_amended_alias_lines_recorded_witness :
    (parse_aliases (["2024/01/01 x", "    A:Bank  100.00"] ++ ["B=Liabilities"])).1 "B" =
      some (pyStrip "Liabilities") ∧
    pyRstrip "B=Liabilities" ∉
      (parse_aliases (["2024/01/01 x", "    A:Bank  100.00"] ++ ["B=Liabilities"])).2 := by
  exact c4_amended_alias_lines_recorded_anywhere
    ["2024/01/01 x", "    A:Bank  100.00"] "B=Liabilities" "B" "Liabilities" (by decide)

/-! ## C7: single-missing-amount inference -/

/-- With exactly the middle posting amount-missing, the amount-bearing
postings are the others, in order. -/
theorem filter_isSome_split (pre post : List Posting) (missing : Posting)
    (hpre : ∀ p ∈ pre, p.amount.isSome = true) (hmiss : missing.amount = none)
    (hpost : ∀ p ∈ post, p.amount.isSome = true) :
    (pre ++ missing :: post).filter (fun p => p.amount.isSome) = pre ++ post := by
  rw [List.filter_append, List.filter_cons]
  rw [List.filter_eq_self.mpr hpre, List.filter_eq_self.mpr hpost]
  simp [hmiss]

/-- With exactly the middle posting amount-missing, the amount-missing
postings are that single posting. -/
theorem filter_isNone_split (pre post : List Posting) (missing : Posting)
    (hpre : ∀ p ∈ pre, p.amount.isSome = true) (hmiss : missing.amount = none)
    (hpost : ∀ p ∈ post, p.amount.isSome = true) :
    (pre ++ missing :: post).filter (fun p => p.amount.isNone) = [missing] := by
  rw [List.filter_append, List.filter_cons]
  have h1 : pre.filter (fun p => p.amount.isNone) = [] := by
    rw [List.filter_eq_nil_iff]
    intro p hp
    rw [Option.isNone_iff_eq_none]
    intro he
    have hc := hpre p hp
    rw [he] at hc
    cases hc
  have h2 : post.filter (fun p => p.amount.isNone) = [] := by
    rw [List.filter_eq_nil_iff]
    intro p hp
    rw [Option.isNone_iff_eq_none]
    intro he
    have hc := hpost p hp
    rw [he] at hc
    cases hc
  simp [h1, h2, hmiss]

/-- Filling walks past the amount-bearing leading run and updates the first
amount-missing posting. -/
theorem fillFirstMissing_split (amt : PyDecimal) (cur : String)
    (pre post : List Posting) (missing : Posting)
    (hpre : ∀ p ∈ pre, p.amount.isSome = true) (hmiss : missing.amount = none) :
    fillFirstMissing amt cur (pre ++ missing :: post) =
      pre ++ { missing with amount := some amt, currency := cur } :: post := by
  induction pre with
  | nil =>
    simp only [List.nil_append, fillFirstMissing]
    rw [if_pos (by rw [hmiss]; rfl)]
  | cons a pre ih =>
    have ha : a.amount.isSome = true := hpre a (List.mem_cons_self a pre)
    have ha' : a.amount.isNone = false := by
      cases h : a.amount with
      | none => rw [h] at ha; cases ha
      | some d => rfl
    simp only [List.cons_append, fillFirstMissing, ha', Bool.false_eq_true, if_false]
    exact congrArg (a :: ·) (ih fun p hp => hpre p (List.mem_cons_of_mem a hp))

/-- Value equality is reflexive. -/
theorem PyDecimal.valEq_refl (a : PyDecimal) : a.valEq a := rfl

/-- A lone amount-missing posting is left untouched by the balancing step
(no amount-bearing posting exists to donate a currency). -/
theorem effectivePostings_only_missing (missing : Posting) (hmiss : missing.amount = none) :
    effectivePostings [missing] = [missing] := by
  unfold effectivePostings
  simp [hmiss]

/-- With exactly one amount-missing posting and at least one amount-bearing
one, the balancing step fills the missing posting with the negated sum of
the others and the first amount-bearer's currency. -/
theorem effectivePostings_single_missing (pre post : List Posting) (missing : Posting)
    (c : Posting) (rest : List Posting)
    (hpre : ∀ p ∈ pre, p.amount.isSome = true) (hmiss : missing.amount = none)
    (hpost : ∀ p ∈ post, p.amount.isSome = true) (hsplit : pre ++ post = c :: rest) :
    effectivePostings (pre ++ missing :: post) =
      pre ++ { missing with
          amount := some (PyDecimal.neg
            (PyDecimal.pySum ((pre ++ post).filterMap Posting.amount))),
          currency := c.currency } :: post := by
  unfold effectivePostings
  rw [filter_isSome_split pre post missing hpre hmiss hpost,
    filter_isNone_split pre post missing hpre hmiss hpost, hsplit]
  simp only [List.length_cons, List.length_nil, List.isEmpty_cons, Bool.false_eq_true, if_false]
  rw [fillFirstMissing_split _ _ pre post missing hpre hmiss]

/-- One step of the posting-creation loop. -/
theorem createPostingRows_cons (txid : Nat) (db : DB) (p : Posting) (ps : List Posting) :
    createPostingRows txid db (p :: ps) =
      createPostingRows txid
        { (get_or_create_account db p.account).2 with
            postings := (get_or_create_account db p.account).2.postings ++
              [⟨txid, (get_or_create_account db p.account).1.id,
                p.amount.getD ⟨0, 2⟩, p.currency⟩] } ps := rfl

/-- The posting-creation loop processes an append in two stages. -/
theorem createPostingRows_append (xs ys : List Posting) :
    ∀ (db : DB) (txid : Nat),
      createPostingRows txid db (xs ++ ys) =
        createPostingRows txid (createPostingRows txid db xs) ys := by
  induction xs with
  | nil => intro db txid; rfl
  | cons p xs ih =>
    intro db txid
    rw [List.cons_append, createPostingRows_cons, createPostingRows_cons, ih]

/-- The posting-creation loop appends one row per posting. -/
theorem createPostingRows_rows (ps : List Posting) :
    ∀ (db : DB) (txid : Nat), ∃ rows,
      (createPostingRows txid db ps).postings = db.postings ++ rows ∧
      rows.length = ps.length := by
  induction ps with
  | nil => intro db txid; exact ⟨[], by simp [createPostingRows]⟩
  | cons p ps ih =>
    intro db txid
    rw [createPostingRows_cons]
    obtain ⟨rows, hrows, hlen⟩ := ih
      { (get_or_create_account db p.account).2 with
          postings := (get_or_create_account db p.account).2.postings ++
            [⟨txid, (get_or_create_account db p.account).1.id,
              p.amount.getD ⟨0, 2⟩, p.currency⟩] } txid
    refine ⟨⟨txid, (get_or_create_account db p.account).1.id,
      p.amount.getD ⟨0, 2⟩, p.currency⟩ :: rows, ?_, by simp [hlen]⟩
    rw [hrows]
    simp [goa_postings]

/-- The non-duplicate, non-ambiguous path of `get_or_create_transaction`:
add the transaction row, then create one posting row per effective posting. -/
theorem goct_new (db : DB) (pt : ParsedTransaction)
    (hnew : db.transactions.find? (fun t => t.transaction_hash == calculate_hash pt) = none)
    (hle : ¬ (pt.postings.filter fun p => p.amount.isNone).length > 1) :
    get_or_create_transaction db pt =
      (some ⟨db.nextId, pt.date, pt.payee, calculate_hash pt⟩,
        createPostingRows db.nextId
          { db with
              transactions := db.transactions ++
                [⟨db.nextId, pt.date, pt.payee, calculate_hash pt⟩],
              nextId := db.nextId + 1 }
          (effectivePostings pt.postings)) := by
  unfold get_or_create_transaction
  simp only [hnew]
  simp [hle]

/-- The posting-creation loop appends one row per posting, and each row
stores the posting's amount (`0.00` when absent) and currency. -/
theorem createPostingRows_rows_pointwise (ps : List Posting) :
    ∀ (db : DB) (txid : Nat), ∃ rows,
      (createPostingRows txid db ps).postings = db.postings ++ rows ∧
      List.Forall₂ (fun (p : Posting) (r : PostingRow) =>
        r.amount = p.amount.getD ⟨0, 2⟩ ∧ r.currency = p.currency) ps rows := by
  induction ps with
  | nil => intro db txid; exact ⟨[], by simp [createPostingRows], List.Forall₂.nil⟩
  | cons p ps ih =>
    intro db txid
    rw [createPostingRows_cons]
    obtain ⟨rows, hrows, hpt⟩ := ih
      { (get_or_create_account db p.account).2 with
          postings := (get_or_create_account db p.account).2.postings ++
            [⟨txid, (get_or_create_account db p.account).1.id,
              p.amount.getD ⟨0, 2⟩, p.currency⟩] } txid
    refine ⟨⟨txid, (get_or_create_account db p.account).1.id,
      p.amount.getD ⟨0, 2⟩, p.currency⟩ :: rows, ?_, List.Forall₂.cons ⟨rfl, rfl⟩ hpt⟩
    rw [hrows]
    simp [goa_postings]

/-- A `Forall₂` over an appended left list splits the right list. -/
theorem forall₂_append_split {α β : Type} {R : α → β → Prop} :
    ∀ {xs ys : List α} {l : List β}, List.Forall₂ R (xs ++ ys) l →
      ∃ l1 l2, l = l1 ++ l2 ∧ List.Forall₂ R xs l1 ∧ List.Forall₂ R ys l2 := by
  intro xs
  induction xs with
  | nil => intro ys l h; exact ⟨[], l, rfl, List.Forall₂.nil, h⟩
  | cons a xs ih =>
    intro ys l h
    rw [List.cons_append, List.forall₂_cons_left_iff] at h
    obtain ⟨b, u, hab, hrest, rfl⟩ := h
    obtain ⟨l1, l2, rfl, h1, h2⟩ := ih hrest
    exact ⟨b :: l1, l2, rfl, List.Forall₂.cons hab h1, h2⟩

/-- **C7.** For a parsed transaction with exactly one amount-missing
posting (written `pre ++ missing :: post`, the others amount-bearing, the
missing one carrying the parser's default currency), importing it into a
store that does not yet hold its hash persists one posting row per posting;
the row in the missing posting's position carries the negation of the sum
of all the other postings' amounts (compared as Python `==` does, by value)
and the currency of the first amount-bearing posting — the default `INR`
when there is none. -/
theorem c7_single_missing_amount_inferred (db : DB) (date : PyDate) (payee : String)
    (pre post : List Posting) (missing : Posting)
    (hpre : ∀ p ∈ pre, p.amount.isSome = true)
    (hmiss : missing.amount = none)
    (hpost : ∀ p ∈ post, p.amount.isSome = true)
    (hcur : missing.currency = "INR")
    (hnew : db.transactions.find? (fun t => t.transaction_hash ==
      calculate_hash ⟨date, payee, pre ++ missing :: post⟩) = none) :
    ∃ rowsBefore row rowsAfter,
      (get_or_create_transaction db ⟨date, payee, pre ++ missing :: post⟩).2.postings =
        db.postings ++ (rowsBefore ++ row :: rowsAfter) ∧
      rowsBefore.length = pre.length ∧
      rowsAfter.length = post.length ∧
      PyDecimal.valEq row.amount
        (PyDecimal.neg (PyDecimal.pySum ((pre ++ post).filterMap Posting.amount))) ∧
      row.currency = (((pre ++ post).head?).map Posting.currency).getD "INR" := by
  have hle : ¬ ((⟨date, payee, pre ++ missing :: post⟩ :
      ParsedTransaction).postings.filter fun p => p.amount.isNone).length > 1 := by
    show ¬ ((pre ++ missing :: post).filter fun p => p.amount.isNone).length > 1
    rw [filter_isNone_split pre post missing hpre hmiss hpost]
    simp
  rw [goct_new db ⟨date, payee, pre ++ missing :: post⟩ hnew hle]
  cases hsplit : pre ++ post with
  | nil =>
    rcases List.append_eq_nil.mp hsplit with ⟨h1, h2⟩
    subst h1; subst h2
    obtain ⟨rows, hrows, hpt⟩ := createPostingRows_rows_pointwise
      (effectivePostings ((⟨date, payee, [] ++ missing :: []⟩ :
        ParsedTransaction).postings)) _ db.nextId
    rw [show (⟨date, payee, [] ++ missing :: []⟩ :
        ParsedTransaction).postings = [missing] from rfl,
      effectivePostings_only_missing missing hmiss] at hpt
    rw [List.forall₂_cons_left_iff] at hpt
    obtain ⟨r, u, hr, hu, rfl⟩ := hpt
    rw [List.forall₂_nil_left_iff] at hu
    subst hu
    refine ⟨[], r, [], ?_, rfl, rfl, ?_, ?_⟩
    · rw [hrows]; rfl
    · rw [hr.1, hmiss]
      show PyDecimal.valEq ⟨0, 2⟩ (PyDecimal.neg (PyDecimal.pySum []))
      simp [PyDecimal.valEq, PyDecimal.pySum, PyDecimal.neg]
    · rw [hr.2, hcur]; rfl
  | cons c rest =>
    obtain ⟨rows, hrows, hpt⟩ := createPostingRows_rows_pointwise
      (effectivePostings ((⟨date, payee, pre ++ missing :: post⟩ :
        ParsedTransaction).postings)) _ db.nextId
    rw [show (⟨date, payee, pre ++ missing :: post⟩ :
        ParsedTransaction).postings = pre ++ missing :: post from rfl,
      effectivePostings_single_missing pre post missing c rest hpre hmiss hpost hsplit] at hpt
    obtain ⟨rows2, rowsTail, rfl, hpre2, htail⟩ := forall₂_append_split hpt
    rw [List.forall₂_cons_left_iff] at htail
    obtain ⟨r, rows3, hr, hrows3, rfl⟩ := htail
    refine ⟨rows2, r, rows3, ?_, ?_, ?_, ?_, ?_⟩
    · rw [hrows]
    · exact (List.Forall₂.length_eq hpre2).symm
    · exact (List.Forall₂.length_eq hrows3).symm
    · rw [hr.1, hsplit]
      exact PyDecimal.valEq_refl _
    · rw [hr.2]
      rfl

/-- **C7 witness.** `Expenses:Food 1,250.00` plus an amount-missing
`Assets:Banking:Checking` in an empty store: the inferred row carries
`-1250.00` and the currency `INR` of the first amount-bearing posting. -/
theorem c7_single_missing_amount_inferred_witness :
    ∃ rowsBefore row rowsAfter,
      (get_or_create_transaction emptyDB ⟨⟨2024, 1, 2⟩, "grocery",
        [⟨"Expenses:Food", some ⟨125000, 2⟩, "INR"⟩] ++
          (⟨"Assets:Banking:Checking", none, "INR"⟩ : Posting) :: []⟩).2.postings =
        emptyDB.postings ++ (rowsBefore ++ row :: rowsAfter) ∧
      rowsBefore.length = ([⟨"Expenses:Food", some ⟨125000, 2⟩, "INR"⟩] :
        List Posting).length ∧
      rowsAfter.length = ([] : List Posting).length ∧
      PyDecimal.valEq row.amount
        (PyDecimal.neg (PyDecimal.pySum
          ((([⟨"Expenses:Food", some ⟨125000, 2⟩, "INR"⟩] : List Posting) ++
            []).filterMap Posting.amount))) ∧
      row.currency = (((([⟨"Expenses:Food", some ⟨125000, 2⟩, "INR"⟩] :
        List Posting) ++ []).head?).map Posting.currency).getD "INR" := by
  exact c7_single_missing_amount_inferred emptyDB ⟨2024, 1, 2⟩ "grocery"
    [⟨"Expenses:Food", some ⟨125000, 2⟩, "INR"⟩] []
    ⟨"Assets:Banking:Checking", none, "INR"⟩
    (by decide) rfl (by decide) rfl rfl

/-! ## C9: account materialization -/

/-- `str.split` never returns an empty list. -/
theorem pySplit_ne_nil (sep : Char) : ∀ cs : List Char, pySplit sep cs ≠ [] := by
  intro cs
  cases cs with
  | nil => exact fun h => nomatch h
  | cons c rest =>
    unfold pySplit
    by_cases h : c = sep
    · simp [h]
    · simp only [h, if_false]
      cases hr : pySplit sep rest with
      | nil => exact fun h => nomatch h
      | cons a t => exact fun h => nomatch h

/-- Joining the pieces of a split gives the original characters back. -/
theorem joinColon_pySplit : ∀ cs : List Char, joinColon (pySplit ':' cs) = cs := by
  intro cs
  induction cs with
  | nil => rfl
  | cons c rest ih =>
    unfold pySplit
    by_cases h : c = ':'
    · rw [if_pos h]
      cases hr : pySplit ':' rest with
      | nil => exact absurd hr (pySplit_ne_nil ':' rest)
      | cons a t =>
        show joinColon ([] :: a :: t) = c :: rest
        unfold joinColon
        rw [h]
        show ':' :: joinColon (a :: t) = ':' :: rest
        rw [← hr, ih]
    · rw [if_neg h]
      cases hr : pySplit ':' rest with
      | nil => exact absurd hr (pySplit_ne_nil ':' rest)
      | cons a t =>
        cases t with
        | nil =>
          show joinColon [c :: a] = c :: rest
          show c :: a = c :: rest
          have h2 := ih
          rw [hr] at h2
          exact congrArg (c :: ·) h2
        | cons b u =>
          show joinColon ((c :: a) :: b :: u) = c :: rest
          show (c :: a) ++ ':' :: joinColon (b :: u) = c :: rest
          rw [List.cons_append]
          show c :: (a ++ ':' :: joinColon (b :: u)) = c :: rest
          rw [show a ++ ':' :: joinColon (b :: u) = joinColon (a :: b :: u) from rfl]
          rw [← hr, ih]


/-- Gluing the first two pieces with a separator does not change the join. -/
theorem joinColon_glue (x y : List Char) (L : List (List Char)) :
    joinColon ((x ++ ':' :: y) :: L) = joinColon (x :: y :: L) := by
  cases L with
  | nil => rfl
  | cons z L =>
    show (x ++ ':' :: y) ++ ':' :: joinColon (z :: L) =
      x ++ ':' :: joinColon (y :: z :: L)
    rw [List.append_assoc]
    rfl

/-- `extendAllStr` from an explicit leading prefix joins the pieces. -/
theorem extendAllStr_some (parts : List String) :
    ∀ d : String, extendAllStr (some d) parts =
      ⟨joinColon (d.data :: parts.map String.data)⟩ := by
  induction parts with
  | nil => intro d; rfl
  | cons p rest ih =>
    intro d
    show extendAllStr (some (d ++ ":" ++ p)) rest = _
    rw [ih (d ++ ":" ++ p)]
    apply congrArg String.mk
    rw [show (d ++ ":" ++ p).data = (d.data ++ [':']) ++ p.data from rfl,
      List.append_assoc]
    exact joinColon_glue d.data p.data (rest.map String.data)

/-- `extendAllStr` from scratch joins all the pieces. -/
theorem extendAllStr_none (parts : List String) (h : parts ≠ []) :
    extendAllStr none parts = ⟨joinColon (parts.map String.data)⟩ := by
  cases parts with
  | nil => exact absurd rfl h
  | cons p rest =>
    show extendAllStr (some p) rest = _
    rw [extendAllStr_some rest p]
    rfl

/-- The loop's accumulated prefix of a split path is the path itself. -/
theorem extendAllStr_splitColon (path : String) :
    extendAllStr none (splitColon path) = path := by
  have hne : splitColon path ≠ [] := by
    unfold splitColon
    intro h
    exact pySplit_ne_nil ':' path.data (List.map_eq_nil_iff.mp h)
  rw [extendAllStr_none _ hne]
  show (⟨joinColon (((pySplit ':' path.data).map String.mk).map String.data)⟩ : String) = path
  rw [List.map_map]
  rw [show (String.data ∘ String.mk) = id from rfl, List.map_id]
  rw [joinColon_pySplit]

/-- Strings of different lengths differ. -/
theorem str_ne_of_len_ne {a b : String} (h : a.data.length ≠ b.data.length) : a ≠ b :=
  fun he => h (by rw [he])

/-- Extending a prefix respects the length bound. -/
theorem len_extendPath_ge (donePath : Option String) (part : String) :
    pathBound donePath ≤ (extendPath donePath part).data.length := by
  cases donePath with
  | none => exact Nat.zero_le _
  | some d =>
    show d.data.length + 1 ≤ ((d ++ ":" ++ part).data).length
    rw [show (d ++ ":" ++ part).data = (d.data ++ [':']) ++ part.data from rfl]
    simp only [List.length_append, List.length_cons, List.length_nil]
    omega

/-- The final join is at least as long as any intermediate bound. -/
theorem len_extendAllStr_ge (parts : List String) :
    ∀ donePath : Option String, parts ≠ [] →
      pathBound donePath ≤ (extendAllStr donePath parts).data.length := by
  induction parts with
  | nil => intro dp h; exact absurd rfl h
  | cons p rest ih =>
    intro dp _
    show pathBound dp ≤ (extendAllStr (some (extendPath dp p)) rest).data.length
    cases rest with
    | nil =>
      show pathBound dp ≤ (extendPath dp p).data.length
      exact len_extendPath_ge dp p
    | cons q u =>
      have h1 := ih (some (extendPath dp p)) (fun h => nomatch h)
      have h2 : pathBound dp ≤ pathBound (some (extendPath dp p)) := by
        show pathBound dp ≤ (extendPath dp p).data.length + 1
        exact Nat.le_succ_of_le (len_extendPath_ge dp p)
      exact Nat.le_trans h2 h1

/-- The current prefix is strictly shorter than the final join when more
segments follow, hence a different string. -/
theorem extendPath_ne_extendAllStr (donePath : Option String) (part : String)
    (rest : List String) (hne : rest ≠ []) :
    extendPath donePath part ≠ extendAllStr (some (extendPath donePath part)) rest := by
  apply str_ne_of_len_ne
  have h1 := len_extendAllStr_ge rest (some (extendPath donePath part)) hne
  have h2 : pathBound (some (extendPath donePath part)) =
      (extendPath donePath part).data.length + 1 := rfl
  show (extendPath donePath part).data.length ≠ _
  omega

/-- `find?` skips a leading run on which the predicate fails. -/
theorem find?_append_of_none {α : Type} (p : α → Bool) :
    ∀ (l1 l2 : List α), (∀ x ∈ l1, p x = false) →
      (l1 ++ l2).find? p = l2.find? p := by
  intro l1
  induction l1 with
  | nil => intro l2 _; rfl
  | cons a l1 ih =>
    intro l2 hall
    rw [List.cons_append, List.find?_cons_of_neg, ih l2
      fun x hx => hall x (List.mem_cons_of_mem a hx)]
    simp [hall a (List.mem_cons_self a l1)]

/-- Walking a fresh path suffix creates the node of the complete path: the
loop returns it, appends it (after the other created prefixes, none of
which takes the complete path) and touches nothing else relevant. -/
theorem goaLoop_creates_target :
    ∀ (parts : List String) (db : DB) (parent : Option Account) (donePath : Option String),
      parts ≠ [] →
      (∀ a ∈ db.accounts, a.full_path ≠ extendAllStr donePath parts) →
      ∃ a1 cs db',
        goaLoop db parent donePath parts = (some a1, db') ∧
        db'.accounts = db.accounts ++ cs ++ [a1] ∧
        a1.full_path = extendAllStr donePath parts ∧
        ∀ a ∈ cs, a.full_path ≠ extendAllStr donePath parts := by
  intro parts
  induction parts with
  | nil => intro db parent donePath h; exact absurd rfl h
  | cons part rest ih =>
    intro db parent donePath _ hfresh
    cases rest with
    | nil =>
      have htgt : extendAllStr donePath [part] = extendPath donePath part := rfl
      have hnone : db.accounts.find?
          (fun a => a.full_path == extendPath donePath part) = none := by
        rw [List.find?_eq_none]
        intro a ha
        simp only [beq_iff_eq]
        have := hfresh a ha
        rw [htgt] at this
        exact this
      refine ⟨⟨db.nextId, part, extendPath donePath part, parent.map Account.id⟩, [],
        { db with
            accounts := db.accounts ++
              [⟨db.nextId, part, extendPath donePath part, parent.map Account.id⟩],
            nextId := db.nextId + 1 },
        ?_, ?_, rfl, fun a ha => absurd ha (List.not_mem_nil a)⟩
      · show goaLoop db parent donePath [part] = _
        unfold goaLoop
        simp only [hnone]
        rfl
      · simp
    | cons r rs =>
      have hcur_ne : extendPath donePath part ≠
          extendAllStr donePath (part :: r :: rs) :=
        extendPath_ne_extendAllStr donePath part (r :: rs) (fun h => nomatch h)
      have htgt : extendAllStr donePath (part :: r :: rs) =
          extendAllStr (some (extendPath donePath part)) (r :: rs) := rfl
      cases hfind : db.accounts.find?
          (fun a => a.full_path == extendPath donePath part) with
      | some acc =>
        obtain ⟨a1, cs, db', hgo, hacc, hpath, hcs⟩ := ih db (some acc)
          (some (extendPath donePath part)) (fun h => nomatch h)
          (fun a ha => htgt ▸ hfresh a ha)
        refine ⟨a1, cs, db', ?_, hacc, htgt ▸ hpath, fun a ha => htgt ▸ hcs a ha⟩
        show goaLoop db parent donePath (part :: r :: rs) = _
        unfold goaLoop
        simp only [hfind]
        exact hgo
      | none =>
        obtain ⟨a1, cs, db', hgo, hacc, hpath, hcs⟩ := ih
          { db with
              accounts := db.accounts ++
                [⟨db.nextId, part, extendPath donePath part, parent.map Account.id⟩],
              nextId := db.nextId + 1 }
          (some ⟨db.nextId, part, extendPath donePath part, parent.map Account.id⟩)
          (some (extendPath donePath part)) (fun h => nomatch h)
          (by
            intro a ha
            rw [List.mem_append] at ha
            rcases ha with ha | ha
            · exact htgt ▸ hfresh a ha
            · rw [List.mem_singleton] at ha
              subst ha
              exact htgt ▸ hcur_ne)
        refine ⟨a1, ⟨db.nextId, part, extendPath donePath part, parent.map Account.id⟩ :: cs,
          db', ?_, ?_, htgt ▸ hpath, ?_⟩
        · show goaLoop db parent donePath (part :: r :: rs) = _
          unfold goaLoop
          simp only [hfind]
          exact hgo
        · rw [hacc]
          simp
        · intro a ha
          rw [List.mem_cons] at ha
          rcases ha with ha | ha
          · subst ha
            exact htgt ▸ hcur_ne
          · exact htgt ▸ hcs a ha

/-- One chain row per path segment. -/
theorem chainFrom_length :
    ∀ (parts : List String) (id0 : Nat) (parent : Option Nat) (donePath : Option String),
      (chainFrom id0 parent donePath parts).length = parts.length := by
  intro parts
  induction parts with
  | nil => intro id0 parent donePath; rfl
  | cons p rest ih =>
    intro id0 parent donePath
    show (chainFrom id0 parent donePath (p :: rest)).length = rest.length + 1
    unfold chainFrom
    rw [List.length_cons, ih]

/-- Unfolding of `chainFrom` on a segment. -/
theorem chainFrom_cons (id0 : Nat) (parent : Option Nat) (donePath : Option String)
    (part : String) (rest : List String) :
    chainFrom id0 parent donePath (part :: rest) =
      ⟨id0, part, extendPath donePath part, parent⟩ ::
        chainFrom (id0 + 1) (some id0) (some (extendPath donePath part)) rest := rfl

/-- Walking a path whose every prefix is longer than anything stored (in
particular, walking any path over an empty store) creates exactly the chain
of prefix rows, with consecutive ids. -/
theorem goaLoop_fresh :
    ∀ (parts : List String) (db : DB) (parent : Option Account) (donePath : Option String),
      (∀ a ∈ db.accounts, a.full_path.data.length < pathBound donePath) →
      (goaLoop db parent donePath parts).2 =
        { db with
            accounts := db.accounts ++
              chainFrom db.nextId (parent.map Account.id) donePath parts,
            nextId := db.nextId + parts.length } := by
  intro parts
  induction parts with
  | nil =>
    intro db parent donePath _
    show db = _
    cases db
    simp [chainFrom]
  | cons part rest ih =>
    intro db parent donePath hinv
    have hfind : db.accounts.find?
        (fun a => a.full_path == extendPath donePath part) = none := by
      rw [List.find?_eq_none]
      intro a ha
      simp only [beq_iff_eq]
      apply str_ne_of_len_ne
      have h1 := hinv a ha
      have h2 := len_extendPath_ge donePath part
      omega
    show (goaLoop db parent donePath (part :: rest)).2 = _
    unfold goaLoop
    simp only [hfind]
    rw [ih
      { db with
          accounts := db.accounts ++
            [⟨db.nextId, part, extendPath donePath part, parent.map Account.id⟩],
          nextId := db.nextId + 1 }
      (some ⟨db.nextId, part, extendPath donePath part, parent.map Account.id⟩)
      (some (extendPath donePath part))
      (by
        intro a ha
        rw [List.mem_append] at ha
        have hb : pathBound (some (extendPath donePath part)) =
            (extendPath donePath part).data.length + 1 := rfl
        rcases ha with ha | ha
        · have h1 := hinv a ha
          have h2 := len_extendPath_ge donePath part
          omega
        · rw [List.mem_singleton] at ha
          subst ha
          show (extendPath donePath part).data.length <
            pathBound (some (extendPath donePath part))
          rw [hb]
          omega)]
    show ({ db with
        accounts := (db.accounts ++
          [⟨db.nextId, part, extendPath donePath part, parent.map Account.id⟩]) ++
          chainFrom (db.nextId + 1) (some db.nextId) (some (extendPath donePath part)) rest,
        nextId := db.nextId + 1 + rest.length } : DB) = _
    rw [chainFrom_cons]
    simp only [DB.mk.injEq, List.length_cons]
    refine ⟨?_, trivial, trivial, trivial, by omega⟩
    rw [List.append_assoc]
    rfl

/-- **C9.** `get_or_create_account` is idempotent — the second call with
the same colon-delimited path returns the same `Account` row and leaves the
store unchanged — and over a previously empty store a path of `n` segments
creates exactly the `n`-row chain of its prefixes (`chainFrom`): ids
`0, 1, …, n-1`, each row's `parent_id` pointing at the row of the
next-shorter prefix (`none` for the root). -/
theorem c9_account_materialization_idempotent (path : String) (db : DB) :
    get_or_create_account (get_or_create_account db path).2 path =
      get_or_create_account db path ∧
    (get_or_create_account emptyDB path).2.accounts =
      chainFrom 0 none none (splitColon path) ∧
    (get_or_create_account emptyDB path).2.accounts.length =
      (splitColon path).length := by
  refine ⟨?_, ?_, ?_⟩
  · cases hfind : db.accounts.find? (fun a => a.full_path == path) with
    | some existing =>
      have h1 : get_or_create_account db path = (existing, db) := by
        unfold get_or_create_account
        rw [hfind]
      rw [h1]
      exact h1
    | none =>
      have hne : splitColon path ≠ [] := by
        unfold splitColon
        intro h
        exact pySplit_ne_nil ':' path.data (List.map_eq_nil_iff.mp h)
      have hfresh : ∀ a ∈ db.accounts,
          a.full_path ≠ extendAllStr none (splitColon path) := by
        rw [extendAllStr_splitColon]
        intro a ha he
        have hc := List.find?_eq_none.mp hfind a ha
        simp [he] at hc
      obtain ⟨a1, cs, db', hgo, hacc, hpath, hcs⟩ :=
        goaLoop_creates_target (splitColon path) db none none hne hfresh
      rw [extendAllStr_splitColon] at hpath hcs
      have h1 : get_or_create_account db path = (a1, db') := by
        unfold get_or_create_account
        rw [hfind, hgo]
      rw [h1]
      show get_or_create_account db' path = (a1, db')
      have hfail : ∀ x ∈ db.accounts ++ cs, (x.full_path == path) = false := by
        intro x hx
        rw [List.mem_append] at hx
        rcases hx with hx | hx
        · have hc := List.find?_eq_none.mp hfind x hx
          simpa using hc
        · exact beq_eq_false_iff_ne.mpr (hcs x hx)
      have hfind2 : db'.accounts.find? (fun a => a.full_path == path) = some a1 := by
        rw [hacc, find?_append_of_none _ (db.accounts ++ cs) [a1] hfail]
        rw [List.find?_cons_of_pos]
        simp [hpath]
      unfold get_or_create_account
      rw [hfind2]
  · have h3 : (get_or_create_account emptyDB path).2 =
        (goaLoop emptyDB none none (splitColon path)).2 := by
      unfold get_or_create_account
      rw [show emptyDB.accounts.find? (fun a => a.full_path == path) = none from rfl]
      cases hg : goaLoop emptyDB none none (splitColon path) with
      | mk fst snd => cases fst <;> rfl
    rw [h3, goaLoop_fresh (splitColon path) emptyDB none none
      (fun a ha => absurd ha (List.not_mem_nil a))]
    rfl
  · have h3 : (get_or_create_account emptyDB path).2 =
        (goaLoop emptyDB none none (splitColon path)).2 := by
      unfold get_or_create_account
      rw [show emptyDB.accounts.find? (fun a => a.full_path == path) = none from rfl]
      cases hg : goaLoop emptyDB none none (splitColon path) with
      | mk fst snd => cases fst <;> rfl
    rw [h3, goaLoop_fresh (splitColon path) emptyDB none none
      (fun a ha => absurd ha (List.not_mem_nil a))]
    show ([] ++ chainFrom 0 none none (splitColon path)).length = _
    rw [List.nil_append, chainFrom_length]
